import Mathlib

/-!
Verification development for the Habr company-articles scraper (`src/habr.py`).

The Python source is shallowly embedded:
* Python strings are modelled as `String` / `List Char`; `str.strip`, `str.split`,
  `int(...)` and friends are modelled by executable Lean functions below.
* Parsed HTML documents (BeautifulSoup trees) are modelled by the inductive `Node`;
  `soup.find` / `find_all` become `findFirst` / `Node.descendants`, with
  BeautifulSoup's multi-valued `class_` matching rules.
* The network is an oracle `String → FetchOutcome α`; `fetch_html` maps an HTTP
  outcome to `Option` exactly as the `try/except` around `raise_for_status` does
  (aiohttp's `raise_for_status` raises for statuses `≥ 400` only).
* `datetime.fromisoformat` and `urllib.parse.urlparse/urlunparse` are modelled
  after CPython 3.10 over ASCII data.
-/

namespace Habr

/-! ## Python string primitives -/

/-- Whitespace characters stripped by Python `str.strip()` (ASCII / Latin-1 range). -/
def pyWhitespace : List Char :=
  [' ', '\t', '\n', '\r', '\x0b', '\x0c', '\x1c', '\x1d', '\x1e', '\x1f', '\x85', '\xa0']

/-- `str.strip(chars)`: remove the given characters from both ends. -/
def pyStripWith (cs : List Char) (l : List Char) : List Char :=
  ((l.dropWhile (cs.contains ·)).reverse.dropWhile (cs.contains ·)).reverse

/-- `str.strip()` with no arguments. -/
def pyStrip (l : List Char) : List Char := pyStripWith pyWhitespace l

/-- `str.strip()` on `String`. -/
def pyStripS (s : String) : String := String.mk (pyStrip s.toList)

/-- Numeric value of an ASCII digit. -/
def digitVal (c : Char) : Nat := c.toNat - 48

/-- Digit run accepted by Python `int()` after the sign: ASCII digits with single
underscores allowed between digits. -/
def digitsVal : Nat → List Char → Option Nat
  | acc, [] => some acc
  | acc, '_' :: c :: rest =>
    if c.isDigit then digitsVal (acc * 10 + digitVal c) rest else none
  | _, ['_'] => none
  | acc, c :: rest =>
    if c.isDigit then digitsVal (acc * 10 + digitVal c) rest else none

/-- Nonempty digit run (must start with a digit). -/
def pyNatDigits : List Char → Option Nat
  | [] => none
  | c :: rest => if c.isDigit then digitsVal (digitVal c) rest else none

/-- Python `int(s)`: strip whitespace, optional sign, ASCII digit run. -/
def pyIntOfChars (l : List Char) : Option Int :=
  match pyStrip l with
  | '+' :: ds => (pyNatDigits ds).map (fun n => (n : Int))
  | '-' :: ds => (pyNatDigits ds).map (fun n => -(n : Int))
  | ds => (pyNatDigits ds).map (fun n => (n : Int))

/-- Python `int(s)` on `String`. -/
def pyIntS (s : String) : Option Int := pyIntOfChars s.toList

/-! ## Parsed-markup model (BeautifulSoup trees) -/

/-- A parsed HTML node: a text node or an element with tag, attributes and children. -/
inductive Node where
  | text (s : String)
  | elem (tag : String) (attrs : List (String × String)) (children : List Node)

instance : Inhabited Node := ⟨Node.text ""⟩

/-- `tag.get(key)` / `tag[key]`: attribute lookup. -/
def Node.attr (n : Node) (k : String) : Option String :=
  match n with
  | .text _ => none
  | .elem _ attrs _ => attrs.lookup k

mutual

/-- `tag.text` / `get_text()`: concatenation of all strings in the subtree. -/
def Node.innerText : Node → String
  | .text s => s
  | .elem _ _ cs => Node.listText cs

def Node.listText : List Node → String
  | [] => ""
  | n :: ns => n.innerText ++ Node.listText ns

end

mutual

/-- All descendants of a node (document order) satisfying `p`; like
`tag.find_all(...)`, the node itself is not considered. -/
def Node.descendants (p : Node → Bool) : Node → List Node
  | .text _ => []
  | .elem _ _ cs => Node.listDescendants p cs

def Node.listDescendants (p : Node → Bool) : List Node → List Node
  | [] => []
  | n :: ns =>
    (if p n then [n] else []) ++ Node.descendants p n ++ Node.listDescendants p ns

end

/-- `tag.find(...)`: first matching descendant. -/
def findFirst (p : Node → Bool) (n : Node) : Option Node :=
  (Node.descendants p n).head?

/-- Python `str.split()` with no arguments: split on whitespace runs, dropping
empty pieces (this is how the tree builder produces the multi-valued `class`). -/
def pySplitWS (s : String) : List String :=
  ((s.toList.splitOnP (fun c => pyWhitespace.contains c)).filter (· ≠ [])).map String.mk

/-- BeautifulSoup `class_` string matching for the multi-valued `class` attribute:
the pattern matches one of the classes, or the space-joined class list. -/
def classMatch (pat : String) (attrVal : String) : Bool :=
  let cls := pySplitWS attrVal
  cls.contains pat || pat == " ".intercalate cls

/-- Matcher for `find(tag, class_=cls, attrs={...})`. -/
def matchesTag (tag : String) (cls : Option String) (want : List (String × String)) :
    Node → Bool
  | .text _ => false
  | .elem t as _ =>
    t == tag &&
    (match cls with
     | none => true
     | some pat =>
       match as.lookup "class" with
       | none => false
       | some v => classMatch pat v) &&
    want.all (fun kv => as.lookup kv.1 == some kv.2)

/-! ## `format_number` (habr.py lines 40-48) -/

/-- The "unavailable" sentinel used throughout `habr.py`. -/
def sentinel : String := "N/A"

/-- `format_number`: `"N/A"` for falsy input, else strip and turn `\xa0` into spaces. -/
def format_number (text : String) : String :=
  if text = "" then sentinel
  else String.mk ((pyStrip text.toList).map (fun c => if c = '\xa0' then ' ' else c))

/-! ## `fetch_html` (habr.py lines 51-62) -/

/-- Outcome of one `session.get(url)`: a response (any status) whose body parses
to `α`, or an exception (network error / `asyncio.TimeoutError`). -/
inductive FetchOutcome (α : Type) where
  | response (status : Nat) (body : α)
  | netError (msg : String)
  | timeout
deriving DecidableEq

/-- `fetch_html`: `resp.raise_for_status()` raises exactly when `status ≥ 400`;
every exception (including timeout) is caught and turned into `None`. -/
def fetch_html {α : Type} (o : FetchOutcome α) : Option α :=
  match o with
  | .response status body => if 400 ≤ status then none else some body
  | .netError _ => none
  | .timeout => none

/-! ## `parse_pagination_last_page` (habr.py lines 65-80) -/

def find_pagination_block (soup : Node) : Option Node :=
  findFirst (matchesTag "div" (some "tm-pagination") [("data-test-id", "pagination")]) soup

def page_links (pb : Node) : List Node :=
  Node.descendants (matchesTag "a" (some "tm-pagination__page") []) pb

/-- `parse_pagination_last_page`: last page link's text as `int`, defaulting to 1. -/
def parse_pagination_last_page (soup : Node) : Int :=
  match find_pagination_block soup with
  | none => 1
  | some pb =>
    match (page_links pb).getLast? with
    | none => 1
    | some lk =>
      match pyIntS (pyStripS lk.innerText) with
      | some n => n
      | none => 1

/-! ## `datetime.fromisoformat` (CPython 3.10) and `strftime` -/

structure PyDateTime where
  year : Int
  month : Int
  day : Int
  hour : Int
  minute : Int
  second : Int
  usec : Int
deriving DecidableEq

def isLeap (y : Int) : Bool := y % 4 == 0 && (y % 100 != 0 || y % 400 == 0)

def daysInMonth (y m : Int) : Int :=
  if m = 2 then (if isLeap y then 29 else 28)
  else if m = 4 ∨ m = 6 ∨ m = 9 ∨ m = 11 then 30
  else 31

/-- The `datetime` constructor's field validation. -/
def mkPyDateTime (y mo d h mi s us : Int) : Option PyDateTime :=
  if 1 ≤ y ∧ y ≤ 9999 ∧ 1 ≤ mo ∧ mo ≤ 12 ∧ 1 ≤ d ∧ d ≤ daysInMonth y mo ∧
     0 ≤ h ∧ h ≤ 23 ∧ 0 ≤ mi ∧ mi ≤ 59 ∧ 0 ≤ s ∧ s ≤ 59 ∧ 0 ≤ us ∧ us ≤ 999999
  then some ⟨y, mo, d, h, mi, s, us⟩ else none

/-- `_parse_isoformat_date` on `date_string[0:10]`: dashes at positions 4 and 7,
`int()` on the three slices (an out-of-range index is a failure). -/
def parseIsoDate : List Char → Option (Int × Int × Int)
  | y0 :: y1 :: y2 :: y3 :: d4 :: m0 :: m1 :: d7 :: rest =>
    if d4 = '-' ∧ d7 = '-' then do
      let y ← pyIntOfChars [y0, y1, y2, y3]
      let m ← pyIntOfChars [m0, m1]
      let d ← pyIntOfChars rest
      pure (y, m, d)
    else none
  | _ => none

/-- The fractional part after `'.'` must have length 3 or 6. -/
def parseFrac (l : List Char) : Option Int :=
  if l.length = 3 then (pyIntOfChars l).map (· * 1000)
  else if l.length = 6 then pyIntOfChars l
  else none

/-- `_parse_hh_mm_ss_ff`: `HH[:MM[:SS[.fff[fff]]]]` with `int()` on 2-char slices. -/
def parseHMSF (t : List Char) : Option (Int × Int × Int × Int) :=
  match t with
  | a :: b :: rest0 =>
    match pyIntOfChars [a, b] with
    | none => none
    | some h =>
      match rest0 with
      | [] => some (h, 0, 0, 0)
      | ':' :: c :: d :: rest1 =>
        match pyIntOfChars [c, d] with
        | none => none
        | some m =>
          match rest1 with
          | [] => some (h, m, 0, 0)
          | ':' :: e :: f :: rest2 =>
            match pyIntOfChars [e, f] with
            | none => none
            | some s =>
              match rest2 with
              | [] => some (h, m, s, 0)
              | '.' :: frac => (parseFrac frac).map (fun us => (h, m, s, us))
              | _ => none
          | _ => none
      | _ => none
  | _ => none

/-- `timezone(timedelta(...))` accepts offsets strictly between -24h and 24h. -/
def tzOffsetOk (sign th tm ts tus : Int) : Bool :=
  let total : Int := sign * (((th * 3600 + tm * 60 + ts) * 1000000) + tus)
  (-86400000000 < total) && (total < 86400000000)

/-- `_parse_isoformat_time`: split at the first `-`/`+`, parse the clock part and
validate the timezone part. -/
def parseIsoTime (tstr : List Char) : Option (Int × Int × Int × Int) :=
  if tstr.length < 2 then none
  else
    let tzpos : Nat :=
      match tstr.findIdx? (fun c => c == '-') with
      | some i => i + 1
      | none =>
        match tstr.findIdx? (fun c => c == '+') with
        | some j => j + 1
        | none => 0
    let timestr := if tzpos > 0 then tstr.take (tzpos - 1) else tstr
    match parseHMSF timestr with
    | none => none
    | some (h, m, s, us) =>
      if tzpos > 0 then
        let tzstr := tstr.drop tzpos
        if tzstr.length = 5 ∨ tzstr.length = 8 ∨ tzstr.length = 15 then
          match parseHMSF tzstr with
          | none => none
          | some (th, tm, ts, tus) =>
            if th = 0 ∧ tm = 0 ∧ ts = 0 ∧ tus = 0 then some (h, m, s, us)
            else
              let sign : Int := if tstr.get? (tzpos - 1) = some '-' then -1 else 1
              if tzOffsetOk sign th tm ts tus then some (h, m, s, us) else none
        else none
      else some (h, m, s, us)

/-- `datetime.fromisoformat` (CPython 3.10): date from `s[0:10]`, the separator
at index 10 is ignored, time from `s[11:]` (midnight when absent). -/
def fromisoformat (s : List Char) : Option PyDateTime := do
  let (y, mo, d) ← parseIsoDate (s.take 10)
  let tstr := s.drop 11
  let tc ← (if tstr = [] then some ((0 : Int), (0 : Int), (0 : Int), (0 : Int))
            else parseIsoTime tstr)
  mkPyDateTime y mo d tc.1 tc.2.1 tc.2.2.1 tc.2.2.2

/-- Two-digit zero padding (`%m`, `%d`, `%H`, `%M`). -/
def pad2 (n : Int) : String := if n < 10 then "0" ++ toString n else toString n

/-- `dt.strftime("%Y-%m-%d")` (glibc: `%Y` is the unpadded year). -/
def fmtDate (dt : PyDateTime) : String :=
  toString dt.year ++ "-" ++ pad2 dt.month ++ "-" ++ pad2 dt.day

/-- `dt.strftime("%H:%M")`. -/
def fmtTime (dt : PyDateTime) : String :=
  pad2 dt.hour ++ ":" ++ pad2 dt.minute

/-- `iso.replace("Z", "+00:00")`. -/
def replaceZ (l : List Char) : List Char :=
  l.flatMap (fun c => if c = 'Z' then "+00:00".toList else [c])

/-- Lines 116-125 of `habr.py`: parse the (stripped) `datetime` attribute; on
success format date and time, otherwise first 10 chars and `split("T")[1][:5]`
(IndexError when there is no `"T"` gives the sentinel). -/
def parse_datetime_attr (iso : List Char) : List Char × List Char :=
  match fromisoformat (replaceZ iso) with
  | some dt => ((fmtDate dt).toList, (fmtTime dt).toList)
  | none =>
    (iso.take 10,
     match iso.splitOn 'T' with
     | _ :: t :: _ => t.take 5
     | _ => sentinel.toList)

/-! ## `parse_article_block` (habr.py lines 83-175) -/

def BASE_URL : String := "https://habr.com"

def find_title_element (b : Node) : Option Node :=
  findFirst (matchesTag "h2" (some "tm-title tm-title_h2") [("data-test-id", "articleTitle")]) b

def find_link_element (b : Node) : Option Node :=
  findFirst (matchesTag "a" (some "tm-title__link")
    [("data-article-link", "true"), ("data-test-id", "article-snippet-title-link")]) b

def title_of (b : Node) : String :=
  match find_title_element b with
  | some te =>
    match findFirst (matchesTag "span" none []) te with
    | some sp => pyStripS sp.innerText
    | none => sentinel
  | none => sentinel

def url_of (b : Node) : String :=
  match find_link_element b with
  | some le =>
    match le.attr "href" with
    | some h => if h = "" then sentinel else BASE_URL ++ h
    | none => sentinel
  | none => sentinel

def find_author_element (b : Node) : Option Node :=
  findFirst (matchesTag "span" (some "tm-user-info__user") [("data-test-id", "user-info-description")]) b

def author_of (b : Node) : String :=
  match find_author_element b with
  | some ae =>
    match findFirst (matchesTag "a" (some "tm-user-info__username") []) ae with
    | some au => pyStripS au.innerText
    | none => sentinel
  | none => sentinel

def find_time_element (b : Node) : Option Node :=
  findFirst (matchesTag "time" none []) b

/-- Lines 110-125: the date/time pair, with sentinel defaults when the `time`
element or its (truthy) `datetime` attribute is missing. -/
def datetime_of (b : Node) : String × String :=
  match find_time_element b with
  | some te =>
    match te.attr "datetime" with
    | some dtv =>
      if dtv = "" then (sentinel, sentinel)
      else
        let r := parse_datetime_attr (pyStrip dtv.toList)
        (String.mk r.1, String.mk r.2)
    | none => (sentinel, sentinel)
  | none => (sentinel, sentinel)

def find_views_parent (b : Node) : Option Node :=
  findFirst (matchesTag "span" (some "tm-icon-counter tm-data-icons__item") []) b

def views_of (b : Node) : String :=
  match find_views_parent b with
  | some vp =>
    match findFirst (matchesTag "span" (some "tm-icon-counter__value") []) vp with
    | some vv =>
      format_number (match vv.attr "title" with
        | some t => if t = "" then vv.innerText else t
        | none => vv.innerText)
    | none => sentinel
  | none => sentinel

def find_votes_element (b : Node) : Option Node :=
  findFirst (matchesTag "div" (some "tm-votes-meter tm-data-icons__item") []) b

def votes_of (b : Node) : String :=
  match find_votes_element b with
  | some ve =>
    match findFirst (matchesTag "span" (some "tm-votes-meter__value")
        [("data-test-id", "votes-meter-value")]) ve with
    | some vm => if vm.innerText = "" then sentinel else pyStripS vm.innerText
    | none => sentinel
  | none => sentinel

def find_comments_wrapper (b : Node) : Option Node :=
  findFirst (matchesTag "div" (some "article-comments-counter-link-wrapper tm-data-icons__item") []) b

def comments_of (b : Node) : String :=
  match find_comments_wrapper b with
  | some cw =>
    match findFirst (matchesTag "span" (some "value") []) cw with
    | some sv => if sv.innerText = "" then sentinel else pyStripS sv.innerText
    | none => sentinel
  | none => sentinel

def find_bookmarks_button (b : Node) : Option Node :=
  findFirst (matchesTag "button" (some "bookmarks-button tm-data-icons__item") []) b

def bookmarks_of (b : Node) : String :=
  match find_bookmarks_button b with
  | some bb =>
    match findFirst (matchesTag "span" (some "bookmarks-button__counter") []) bb with
    | some cs =>
      let textVal := if cs.innerText = "" then "" else pyStripS cs.innerText
      let titleVal := pyStripS ((cs.attr "title").getD "")
      format_number (if textVal = "" then titleVal else textVal)
    | none => sentinel
  | none => sentinel

structure ArticleRecord where
  url : String
  title : String
  author : String
  date : String
  time : String
  votes : String
  comments : String
  bookmarks : String
  views : String
deriving DecidableEq

/-- `parse_article_block`: assemble the nine fields. -/
def parse_article_block (b : Node) : ArticleRecord :=
  { url := url_of b
    title := title_of b
    author := author_of b
    date := (datetime_of b).1
    time := (datetime_of b).2
    votes := votes_of b
    comments := comments_of b
    bookmarks := bookmarks_of b
    views := views_of b }

/-- The dict literal returned at lines 165-175, in source order. -/
def record_dict (r : ArticleRecord) : List (String × String) :=
  [("url", r.url), ("title", r.title), ("author", r.author), ("date", r.date),
   ("time", r.time), ("votes", r.votes), ("comments", r.comments),
   ("bookmarks", r.bookmarks), ("views", r.views)]

/-! ## `parse_articles_list` (habr.py lines 178-191) -/

def article_blocks (soup : Node) : List Node :=
  Node.descendants (matchesTag "article" (some "tm-articles-list__item") []) soup

/-- The loop of `parse_articles_list`, with the per-block `try/except` made
explicit: a block parser that may fail (raise); failures are skipped. -/
def parse_articles_list_with (p : Node → Except String ArticleRecord) (soup : Node) :
    List ArticleRecord :=
  (article_blocks soup).foldl
    (fun results b =>
      match p b with
      | .ok r => results ++ [r]
      | .error _ => results) []

/-- `parse_articles_list` as written (in the model `parse_article_block` is total). -/
def parse_articles_list (soup : Node) : List ArticleRecord :=
  parse_articles_list_with (fun b => .ok (parse_article_block b)) soup

/-! ## `scrape_company_articles` (habr.py lines 500-528)

The network is an oracle `net : String → FetchOutcome Node` (a fetched body is
represented by its parse tree; `BeautifulSoup` is the identity in the model).
`asyncio.gather` returns results in argument order, so the sequential fold below
is the aggregation the orchestrator performs; `asyncio.sleep(0.01)` has no
observable effect on the result. -/

/-- The pagination URL `f"{articles_url}page{page_num}/"` (line 519). -/
def page_url (base : String) (n : Int) : String :=
  base ++ "page" ++ toString n ++ "/"

/-- `range(2, last_page + 1)`. -/
def pageNums (last : Int) : List Int :=
  (List.range (last - 1).toNat).map (fun (i : Nat) => 2 + (i : Int))

def scrape_company_articles (net : String → FetchOutcome Node) (articles_url : String) :
    List ArticleRecord :=
  match fetch_html (net articles_url) with
  | none => []
  | some first =>
    let rows := parse_articles_list first
    if 1 < parse_pagination_last_page first then
      rows ++ (pageNums (parse_pagination_last_page first)).flatMap (fun n =>
        match fetch_html (net (page_url articles_url n)) with
        | none => []
        | some h => parse_articles_list h)
    else rows

/-- The URLs `scrape_company_articles` passes to `fetch_html`, in order. -/
def scrape_requests (net : String → FetchOutcome Node) (articles_url : String) :
    List String :=
  match fetch_html (net articles_url) with
  | none => [articles_url]
  | some first =>
    if 1 < parse_pagination_last_page first then
      articles_url :: (pageNums (parse_pagination_last_page first)).map (page_url articles_url)
    else [articles_url]

/-! ## `urllib.parse.urlparse` / `urlunparse` (CPython 3.10, ASCII data) -/

def schemeChars : List Char :=
  "abcdefghijklmnopqrstuvwxyzABCDEFGHIJKLMNOPQRSTUVWXYZ0123456789+-.".toList

/-- Characters `urlsplit` removes from the URL before parsing. -/
def tabCrLf : List Char := ['\t', '\r', '\n']

/-- Split a list at the first element satisfying `p`; `none` when no element does. -/
def splitAtFirst (p : Char → Bool) : List Char → Option (List Char × List Char)
  | [] => none
  | c :: cs =>
    if p c then some ([], cs)
    else (splitAtFirst p cs).map (fun ab => (c :: ab.1, ab.2))

structure UrlSplitResult where
  scheme : List Char
  netloc : List Char
  path : List Char
  params : List Char
  query : List Char
  fragment : List Char
deriving DecidableEq

inductive NormError where
  /-- The `ValueError` raised at habr.py line 471 for an empty link. -/
  | invalidInput
  /-- `ValueError("Invalid IPv6 URL")` raised inside `urlsplit`. -/
  | invalidIPv6
deriving DecidableEq

/-- The scheme split of `urlsplit`: the text before the first `':'` must be
nonempty, start with an ASCII letter and consist of scheme characters; the
scheme is lowercased. -/
def splitScheme (url : List Char) : List Char × List Char :=
  match splitAtFirst (fun c => c == ':') url with
  | some (before, after) =>
    if before ≠ [] ∧ before.head?.elim false Char.isAlpha ∧
       before.all (fun c => schemeChars.contains c)
    then (before.map Char.toLower, after)
    else (([] : List Char), url)
  | none => (([] : List Char), url)

/-- `_splitnetloc`: after a leading `"//"`, the netloc runs to the first
`'/'`, `'?'` or `'#'`. -/
def splitNetloc (rest : List Char) : List Char × List Char :=
  if rest.take 2 = ['/', '/'] then
    ((rest.drop 2).takeWhile (fun c => !(['/', '?', '#'].contains c)),
     (rest.drop 2).dropWhile (fun c => !(['/', '?', '#'].contains c)))
  else (([] : List Char), rest)

/-- `url.split('#', 1)` (no-op when there is no `'#'`). -/
def splitFragment (u : List Char) : List Char × List Char :=
  match splitAtFirst (fun c => c == '#') u with
  | some (a, b) => (a, b)
  | none => (u, ([] : List Char))

/-- `url.split('?', 1)` (no-op when there is no `'?'`). -/
def splitQuery (u : List Char) : List Char × List Char :=
  match splitAtFirst (fun c => c == '?') u with
  | some (a, b) => (a, b)
  | none => (u, ([] : List Char))

/-- `urlsplit`: drop tab/CR/LF, split off a valid scheme (lowercased), a
`//`-netloc (with the IPv6 bracket balance check), then fragment and query. -/
def urlsplitModel (url0 : List Char) : Except NormError UrlSplitResult :=
  let url1 := url0.filter (fun c => !(tabCrLf.contains c))
  let sr := splitScheme url1
  let nr := splitNetloc sr.2
  if ('[' ∈ nr.1 ∧ ']' ∉ nr.1) ∨ (']' ∈ nr.1 ∧ '[' ∉ nr.1) then
    .error .invalidIPv6
  else
    let fr := splitFragment nr.2
    let qr := splitQuery fr.1
    .ok ⟨sr.1, nr.1, qr.1, [], qr.2, fr.2⟩

/-- `_splitparams`: split params off the last path segment (`find(';', rfind('/'))`). -/
def splitparams (url : List Char) : List Char × List Char :=
  if '/' ∈ url then
    match splitAtFirst (fun c => c == '/') url.reverse with
    | some (revTail, revInit) =>
      match splitAtFirst (fun c => c == ';') revTail.reverse with
      | some (a, b) => (revInit.reverse ++ '/' :: a, b)
      | none => (url, [])
    | none => (url, [])
  else
    match splitAtFirst (fun c => c == ';') url with
    | some (a, b) => (a, b)
    | none => (url, [])

/-- `urlparse` = `urlsplit` plus the params split when `';'` occurs in the path. -/
def urlparseModel (url : List Char) : Except NormError UrlSplitResult :=
  match urlsplitModel url with
  | .error e => .error e
  | .ok r =>
    if ';' ∈ r.path then
      .ok { r with path := (splitparams r.path).1, params := (splitparams r.path).2 }
    else .ok r

/-- `urlunparse` (via `urlunsplit`). -/
def urlunparseModel (scheme netloc url params query fragment : List Char) : List Char :=
  let url1 := if params ≠ [] then url ++ ';' :: params else url
  let url2 :=
    if netloc ≠ [] ∨ (url1 ≠ [] ∧ url1.take 2 = ['/', '/']) then
      ('/' :: '/' :: netloc) ++ (if url1 ≠ [] ∧ url1.head? ≠ some '/' then '/' :: url1 else url1)
    else url1
  let url3 := if scheme ≠ [] then scheme ++ ':' :: url2 else url2
  let url4 := if query ≠ [] then url3 ++ '?' :: query else url3
  if fragment ≠ [] then url4 ++ '#' :: fragment else url4

/-! ## `normalize_company_articles_url` (habr.py lines 458-497) -/

/-- The non-empty segments of a path: `[p for p in path.split("/") if p]`. -/
def segmentsOf (path : List Char) : List (List Char) :=
  (path.splitOn '/').filter (· ≠ [])

/-- Lines 481-494: the `companies`/`articles` branch on the collapsed path. -/
def finalize_path (path1 : List Char) : List Char :=
  let parts := (pyStripWith ['/'] path1).splitOn '/'
  let withSlash := if path1.getLast? = some '/' then path1 else path1 ++ ['/']
  match parts with
  | _ :: b :: _ :: _ =>
    if b = "companies".toList then
      if parts.contains "articles".toList then withSlash
      else '/' :: List.intercalate ['/'] (parts.take 3 ++ ["articles".toList]) ++ ['/']
    else withSlash
  | _ => withSlash

def normalizeChars (raw : List Char) : Except NormError (List Char) :=
  if raw = [] then .error .invalidInput
  else
    match urlparseModel (pyStrip raw) with
    | .error e => .error e
    | .ok p =>
      let scheme := if p.scheme = [] then "https".toList else p.scheme
      let netloc := if p.netloc = [] then "habr.com".toList else p.netloc
      let path0 := if p.path = [] then ['/'] else p.path
      let path1 := '/' :: List.intercalate ['/'] (segmentsOf path0)
      .ok (urlunparseModel scheme netloc (finalize_path path1) [] [] [])

def normalize_company_articles_url (raw : String) : Except NormError String :=
  (normalizeChars raw.toList).map String.mk

/-! ## Supporting lemmas -/

theorem splitAtFirst_eq_none (p : Char → Bool) {l : List Char} (h : ∀ x ∈ l, p x = false) :
    splitAtFirst p l = none := by
  induction l with
  | nil => rfl
  | cons x xs ih =>
    rw [splitAtFirst, if_neg (by simp [h x (by simp)]),
      ih fun y hy => h y (List.mem_cons_of_mem _ hy)]
    rfl

theorem splitAtFirst_eq_some (p : Char → Bool) (a : List Char) (c : Char) (b : List Char)
    (ha : ∀ x ∈ a, p x = false) (hc : p c = true) :
    splitAtFirst p (a ++ c :: b) = some (a, b) := by
  induction a with
  | nil => simp [splitAtFirst, hc]
  | cons x xs ih =>
    rw [List.cons_append, splitAtFirst, if_neg (by simp [ha x (by simp)]),
      ih fun y hy => ha y (List.mem_cons_of_mem _ hy)]
    rfl

theorem splitAtFirst_some_spec (p : Char → Bool) {l a b : List Char}
    (h : splitAtFirst p l = some (a, b)) :
    (∃ c, p c = true ∧ l = a ++ c :: b) ∧ ∀ x ∈ a, p x = false := by
  induction l generalizing a with
  | nil => simp [splitAtFirst] at h
  | cons x xs ih =>
    rw [splitAtFirst] at h
    by_cases hx : p x
    · rw [if_pos hx] at h
      obtain ⟨rfl, rfl⟩ : [] = a ∧ xs = b := by
        simpa using h
      exact ⟨⟨x, hx, rfl⟩, by simp⟩
    · rw [if_neg hx] at h
      rcases ha : splitAtFirst p xs with _ | ⟨a', b'⟩
      · rw [ha] at h; simp at h
      · rw [ha] at h
        obtain ⟨rfl, rfl⟩ : x :: a' = a ∧ b' = b := by
          simpa using h
        obtain ⟨⟨c, hc, hxs⟩, hall⟩ := ih ha
        refine ⟨⟨c, hc, by rw [hxs]; rfl⟩, fun y hy => ?_⟩
        rcases List.mem_cons.mp hy with rfl | hy'
        · simpa using hx
        · exact hall y hy'

theorem splitAtFirst_none_spec (p : Char → Bool) {l : List Char}
    (h : splitAtFirst p l = none) : ∀ x ∈ l, p x = false := by
  induction l with
  | nil => simp
  | cons x xs ih =>
    rw [splitAtFirst] at h
    by_cases hx : p x
    · rw [if_pos hx] at h; simp at h
    · rw [if_neg hx] at h
      intro y hy
      rcases List.mem_cons.mp hy with rfl | hy'
      · simpa using hx
      · rcases ha : splitAtFirst p xs with _ | ab
        · exact ih ha y hy'
        · rw [ha] at h; simp at h

theorem takeWhile_append_eq (p : Char → Bool) (a b : List Char)
    (ha : ∀ x ∈ a, p x = true) (hb : ∀ c, b.head? = some c → p c = false) :
    (a ++ b).takeWhile p = a ∧ (a ++ b).dropWhile p = b := by
  induction a with
  | nil =>
    cases b with
    | nil => exact ⟨rfl, rfl⟩
    | cons c m =>
      have := hb c rfl
      constructor
      · rw [List.nil_append, List.takeWhile_cons, if_neg (by simp [this])]
      · rw [List.nil_append, List.dropWhile_cons, if_neg (by simp [this])]
  | cons x xs ih =>
    obtain ⟨ih1, ih2⟩ := ih (fun y hy => ha y (List.mem_cons_of_mem _ hy))
    constructor
    · rw [List.cons_append, List.takeWhile_cons, if_pos (ha x (by simp)), ih1]
    · rw [List.cons_append, List.dropWhile_cons, if_pos (ha x (by simp)), ih2]

theorem pyStripWith_noop (cs l : List Char)
    (h1 : ∀ c, l.head? = some c → cs.contains c = false)
    (h2 : ∀ c, l.getLast? = some c → cs.contains c = false) :
    pyStripWith cs l = l := by
  unfold pyStripWith
  have hdrop : l.dropWhile (cs.contains ·) = l := by
    cases l with
    | nil => rfl
    | cons c m => rw [List.dropWhile_cons, if_neg (by simpa using h1 c rfl)]
  rw [hdrop]
  rcases List.eq_nil_or_concat l with rfl | ⟨init, c, hl⟩
  · rfl
  · rw [hl, List.concat_eq_append, List.reverse_append, List.reverse_cons, List.reverse_nil,
      List.nil_append, List.singleton_append, List.dropWhile_cons,
      if_neg (by simpa using h2 c (by rw [hl, List.concat_eq_append, List.getLast?_concat]))]
    simp

theorem splitOnP_head_cons (p : Char → Bool) (l : List Char) :
    ∃ tl, l.splitOnP p = l.takeWhile (fun a => !p a) :: tl := by
  induction l with
  | nil => exact ⟨[], rfl⟩
  | cons x xs ih =>
    obtain ⟨tl, htl⟩ := ih
    by_cases hx : p x
    · exact ⟨xs.splitOnP p, by simp [List.splitOnP_cons, hx]⟩
    · exact ⟨tl, by simp [List.splitOnP_cons, hx, htl]⟩

theorem mem_of_mem_splitOnP (p : Char → Bool) (l : List Char) :
    ∀ s ∈ l.splitOnP p, ∀ a ∈ s, a ∈ l ∧ p a = false := by
  induction l with
  | nil =>
    intro s hs a ha
    simp only [List.splitOnP_nil, List.mem_singleton] at hs
    subst hs
    simp at ha
  | cons x xs ih =>
    intro s hs a ha
    rw [List.splitOnP_cons] at hs
    by_cases hx : p x
    · rw [if_pos hx] at hs
      rcases List.mem_cons.mp hs with rfl | hs'
      · simp at ha
      · have := ih s hs' a ha
        exact ⟨List.mem_cons_of_mem _ this.1, this.2⟩
    · rw [if_neg hx] at hs
      obtain ⟨tl, htl⟩ := splitOnP_head_cons p xs
      rw [htl] at hs
      simp only [List.modifyHead, List.mem_cons] at hs
      rcases hs with rfl | hs'
      · rcases List.mem_cons.mp ha with rfl | ha'
        · exact ⟨by simp, by simpa using hx⟩
        · have := ih _ (by rw [htl]; exact List.mem_cons_self _ _) a ha'
          exact ⟨List.mem_cons_of_mem _ this.1, this.2⟩
      · have := ih s (by rw [htl]; exact List.mem_cons_of_mem _ hs') a ha
        exact ⟨List.mem_cons_of_mem _ this.1, this.2⟩

theorem intercalate_two (d : Char) (s t : List Char) (rest : List (List Char)) :
    List.intercalate [d] (s :: t :: rest) = s ++ d :: List.intercalate [d] (t :: rest) := by
  simp [List.intercalate, List.intersperse]

theorem intercalate_one (d : Char) (s : List Char) : List.intercalate [d] [s] = s := by
  simp [List.intercalate]

theorem intercalate_concat_nil (d : Char) (xs : List (List Char)) (hxs : xs ≠ []) :
    List.intercalate [d] (xs ++ [[]]) = List.intercalate [d] xs ++ [d] := by
  induction xs with
  | nil => exact absurd rfl hxs
  | cons s rest ih =>
    cases rest with
    | nil => simp [intercalate_two, intercalate_one]
    | cons t rest2 =>
      have hshape : (s :: t :: rest2) ++ [[]] = s :: ((t :: rest2) ++ [[]]) := by simp
      rw [hshape, show ((t :: rest2) ++ [[]]) = t :: (rest2 ++ [[]]) from by simp,
        intercalate_two, show t :: (rest2 ++ [[]]) = (t :: rest2) ++ [[]] from by simp,
        ih (by simp), intercalate_two]
      simp

theorem intercalate_getLast (d : Char) (segs : List (List Char)) (hne : segs ≠ [])
    (hall : ∀ s ∈ segs, s ≠ []) (hd : ∀ s ∈ segs, d ∉ s) :
    ∃ c, c ≠ d ∧ (List.intercalate [d] segs).getLast? = some c := by
  induction segs with
  | nil => exact absurd rfl hne
  | cons s rest ih =>
    cases rest with
    | nil =>
      have hs : s ≠ [] := hall s (by simp)
      rcases List.eq_nil_or_concat s with rfl | ⟨init, c, hsc⟩
      · exact absurd rfl hs
      · refine ⟨c, ?_, ?_⟩
        · intro hcd
          exact hd s (by simp) (by rw [hsc, List.concat_eq_append, hcd]; simp)
        · rw [intercalate_one, hsc, List.concat_eq_append, List.getLast?_concat]
    | cons t rest2 =>
      obtain ⟨c, hc1, hc2⟩ := ih (by simp)
        (fun u hu => hall u (List.mem_cons_of_mem _ hu))
        (fun u hu => hd u (List.mem_cons_of_mem _ hu))
      refine ⟨c, hc1, ?_⟩
      rw [intercalate_two, List.getLast?_append, List.getLast?_cons, hc2]
      rfl

theorem intercalate_head (d : Char) (s : List Char) (rest : List (List Char)) :
    s ≠ [] → (List.intercalate [d] (s :: rest)).head? = s.head? := by
  intro hs
  cases rest with
  | nil => rw [intercalate_one]
  | cons t rest2 =>
    rw [intercalate_two]
    cases s with
    | nil => exact absurd rfl hs
    | cons c m => rfl

theorem mem_intercalate (d : Char) (segs : List (List Char)) :
    ∀ a ∈ List.intercalate [d] segs, a = d ∨ ∃ s ∈ segs, a ∈ s := by
  induction segs with
  | nil => simp [List.intercalate]
  | cons s rest ih =>
    intro a ha
    cases rest with
    | nil =>
      rw [intercalate_one] at ha
      exact .inr ⟨s, by simp, ha⟩
    | cons t rest2 =>
      rw [intercalate_two] at ha
      rcases List.mem_append.mp ha with h1 | h2
      · exact .inr ⟨s, by simp, h1⟩
      · rcases List.mem_cons.mp h2 with rfl | h3
        · exact .inl rfl
        · rcases ih a h3 with h4 | ⟨u, hu, hau⟩
          · exact .inl h4
          · exact .inr ⟨u, List.mem_cons_of_mem _ hu, hau⟩

theorem foldl_skip_eq_flatMap (p : Node → Except String ArticleRecord) (bs : List Node)
    (acc : List ArticleRecord) :
    bs.foldl (fun results b =>
        match p b with
        | .ok r => results ++ [r]
        | .error _ => results) acc
      = acc ++ bs.flatMap (fun b =>
          match p b with
          | .ok r => [r]
          | .error _ => []) := by
  induction bs generalizing acc with
  | nil => simp
  | cons b bs ih =>
    cases hpb : p b <;> simp [List.foldl_cons, hpb, ih]

/-! ## Canonical form of normalized URLs -/

/-- A scheme as stored by the parse: nonempty, leading ASCII letter, scheme
characters only, already lowercased. -/
def schemeOK (s : List Char) : Prop :=
  s ≠ [] ∧ (∀ c ∈ s, c ∈ schemeChars) ∧ s.head?.elim false Char.isAlpha = true ∧
  s.map Char.toLower = s

/-- A netloc as stored by the parse: nonempty, no path/query/fragment
delimiters, no tab/CR/LF, and IPv6 brackets balanced-or-absent. -/
def netlocOK (n : List Char) : Prop :=
  n ≠ [] ∧ (∀ c ∈ n, (['/', '?', '#'].contains c) = false ∧ tabCrLf.contains c = false) ∧
  ¬(('[' ∈ n ∧ ']' ∉ n) ∨ (']' ∈ n ∧ '[' ∉ n))

/-- A path segment: nonempty and free of delimiters and tab/CR/LF. -/
def segOK (s : List Char) : Prop :=
  s ≠ [] ∧ ∀ c ∈ s, c ≠ '/' ∧ c ≠ '?' ∧ c ≠ '#' ∧ tabCrLf.contains c = false

/-- The segment lists `finalize_path` maps to themselves: when the second
segment is `companies` (with at least three segments), `articles` occurs. -/
def stableSegs (segs : List (List Char)) : Prop :=
  match segs with
  | _ :: b :: _ :: _ => b = "companies".toList → "articles".toList ∈ segs
  | _ => True

/-- The canonical path with the given segments and a trailing separator. -/
def pathOf (segs : List (List Char)) : List Char :=
  if segs = [] then ['/'] else '/' :: List.intercalate ['/'] segs ++ ['/']

/-- The canonical form of every addresss `normalize_company_articles_url`
produces: `scheme://netloc/seg1/.../segN/`. -/
def GoodUrl (u : List Char) : Prop :=
  ∃ scheme netloc segs, schemeOK scheme ∧ netlocOK netloc ∧ (∀ s ∈ segs, segOK s) ∧
    stableSegs segs ∧ u = scheme ++ ':' :: '/' :: '/' :: netloc ++ pathOf segs

theorem schemeChars_facts :
    ∀ c ∈ schemeChars,
      Char.toLower c ∈ schemeChars ∧ Char.toLower (Char.toLower c) = Char.toLower c ∧
      (c.isAlpha = true → (Char.toLower c).isAlpha = true) ∧
      pyWhitespace.contains c = false ∧ tabCrLf.contains c = false ∧
      c ≠ ':' ∧ c ≠ '?' ∧ c ≠ '#' ∧ c ≠ '/' := by decide

theorem pathOf_head (segs : List (List Char)) : (pathOf segs).head? = some '/' := by
  unfold pathOf
  split <;> rfl

theorem pathOf_concat (segs : List (List Char)) : ∃ X, pathOf segs = X ++ ['/'] := by
  unfold pathOf
  split
  · exact ⟨[], rfl⟩
  · exact ⟨'/' :: List.intercalate ['/'] segs, by simp⟩

theorem pathOf_getLast (segs : List (List Char)) : (pathOf segs).getLast? = some '/' := by
  obtain ⟨X, hX⟩ := pathOf_concat segs
  rw [hX, List.getLast?_concat]

theorem pathOf_mem (segs : List (List Char)) :
    ∀ c ∈ pathOf segs, c = '/' ∨ ∃ s ∈ segs, c ∈ s := by
  intro c hc
  unfold pathOf at hc
  split at hc
  · simp at hc
    exact .inl hc
  · rcases List.mem_cons.mp hc with rfl | hc2
    · exact .inl rfl
    · rcases List.mem_append.mp hc2 with h3 | h4
      · rcases mem_intercalate '/' segs c h3 with h5 | h6
        · exact .inl h5
        · exact .inr h6
      · simp at h4
        exact .inl h4

theorem pathOf_mem_facts (segs : List (List Char)) (hsegs : ∀ s ∈ segs, segOK s) :
    ∀ c ∈ pathOf segs, c ≠ '?' ∧ c ≠ '#' ∧ tabCrLf.contains c = false := by
  intro c hc
  rcases pathOf_mem segs c hc with rfl | ⟨s, hs, hcs⟩
  · exact ⟨by decide, by decide, by decide⟩
  · have := (hsegs s hs).2 c hcs
    exact ⟨this.2.1, this.2.2.1, this.2.2.2⟩

/-! Exact-value lemmas for the `urlsplit` components on canonical input. -/

theorem splitScheme_exact (scheme rest : List Char) (h : schemeOK scheme) :
    splitScheme (scheme ++ ':' :: rest) = (scheme, rest) := by
  obtain ⟨hne, hmem, hhead, hlow⟩ := h
  rw [splitScheme, splitAtFirst_eq_some _ scheme ':' rest
    (fun x hx => by simp [(schemeChars_facts x (hmem x hx)).2.2.2.2.2.1]) (by rfl)]
  show (if scheme ≠ [] ∧ scheme.head?.elim false Char.isAlpha = true ∧
      (scheme.all fun c => schemeChars.contains c) = true
    then (List.map Char.toLower scheme, rest) else ([], scheme ++ ':' :: rest)) = (scheme, rest)
  rw [if_pos ⟨hne, hhead, by rw [List.all_eq_true]; intro c hc; simpa using hmem c hc⟩, hlow]

theorem splitNetloc_exact (netloc path : List Char)
    (hn : ∀ c ∈ netloc, (['/', '?', '#'].contains c) = false)
    (hp : path.head? = some '/') :
    splitNetloc ('/' :: '/' :: (netloc ++ path)) = (netloc, path) := by
  obtain ⟨ht, hd⟩ := takeWhile_append_eq (fun c => !(['/', '?', '#'].contains c)) netloc path
    (fun x hx => by
      simp only [hn x hx]
      rfl)
    (fun c hc => by
      rw [hp] at hc
      cases hc
      decide)
  rw [splitNetloc,
    if_pos (show List.take 2 ('/' :: '/' :: (netloc ++ path)) = ['/', '/'] from rfl)]
  show (List.takeWhile (fun c => !(['/', '?', '#'].contains c)) (netloc ++ path),
        List.dropWhile (fun c => !(['/', '?', '#'].contains c)) (netloc ++ path)) = (netloc, path)
  rw [ht, hd]

theorem splitFragment_exact (u : List Char) (h : ∀ x ∈ u, x ≠ '#') :
    splitFragment u = (u, []) := by
  rw [splitFragment, splitAtFirst_eq_none _ fun x hx => by simp [h x hx]]

theorem splitQuery_exact (u : List Char) (h : ∀ x ∈ u, x ≠ '?') :
    splitQuery u = (u, []) := by
  rw [splitQuery, splitAtFirst_eq_none _ fun x hx => by simp [h x hx]]

theorem splitparams_pathOf (segs : List (List Char)) :
    splitparams (pathOf segs) = (pathOf segs, []) := by
  obtain ⟨X, hX⟩ := pathOf_concat segs
  rw [splitparams, if_pos (by rw [hX]; simp)]
  rw [hX, List.reverse_append]
  show (match splitAtFirst (fun c => c == '/') ('/' :: X.reverse) with
    | some (revTail, revInit) =>
      match splitAtFirst (fun c => c == ';') revTail.reverse with
      | some (a, b) => (revInit.reverse ++ '/' :: a, b)
      | none => (X ++ ['/'], [])
    | none => (X ++ ['/'], [])) = (X ++ ['/'], [])
  rw [show splitAtFirst (fun c => c == '/') ('/' :: X.reverse) = some ([], X.reverse) from by
    rw [splitAtFirst, if_pos (by rfl)]]
  rfl

theorem urlunparse_assemble (scheme netloc path : List Char)
    (hs : scheme ≠ []) (hn : netloc ≠ []) (hp : path.head? = some '/') :
    urlunparseModel scheme netloc path [] [] []
      = scheme ++ ':' :: '/' :: '/' :: netloc ++ path := by
  unfold urlunparseModel
  simp [hs, hn, hp]

theorem filter_tabCrLf_noop (u : List Char) (h : ∀ c ∈ u, tabCrLf.contains c = false) :
    u.filter (fun c => !(tabCrLf.contains c)) = u := by
  rw [List.filter_eq_self]
  intro a ha
  simp only [h a ha]
  rfl

theorem goodUrl_chars (scheme netloc : List Char) (segs : List (List Char))
    (hs : schemeOK scheme) (hn : netlocOK netloc) (hsegs : ∀ s ∈ segs, segOK s) :
    ∀ c ∈ scheme ++ ':' :: '/' :: '/' :: netloc ++ pathOf segs,
      tabCrLf.contains c = false := by
  intro c hc
  rcases List.mem_append.mp hc with h1 | h5
  · rcases List.mem_append.mp h1 with h2 | h3
    · exact (schemeChars_facts c (hs.2.1 c h2)).2.2.2.2.1
    · simp only [List.mem_cons] at h3
      rcases h3 with rfl | rfl | rfl | h4
      · decide
      · decide
      · decide
      · exact (hn.2.1 c h4).2
  · exact (pathOf_mem_facts segs hsegs c h5).2.2

theorem urlparseModel_exact (scheme netloc : List Char) (segs : List (List Char))
    (hs : schemeOK scheme) (hn : netlocOK netloc) (hsegs : ∀ s ∈ segs, segOK s) :
    urlparseModel (scheme ++ ':' :: '/' :: '/' :: netloc ++ pathOf segs)
      = .ok ⟨scheme, netloc, pathOf segs, [], [], []⟩ := by
  have hsplit : urlsplitModel (scheme ++ ':' :: '/' :: '/' :: netloc ++ pathOf segs)
      = .ok ⟨scheme, netloc, pathOf segs, [], [], []⟩ := by
    simp only [urlsplitModel]
    rw [filter_tabCrLf_noop _ (goodUrl_chars scheme netloc segs hs hn hsegs)]
    rw [show scheme ++ ':' :: '/' :: '/' :: netloc ++ pathOf segs
        = scheme ++ ':' :: ('/' :: '/' :: (netloc ++ pathOf segs)) from by simp]
    rw [splitScheme_exact scheme _ hs]
    dsimp only
    rw [splitNetloc_exact netloc (pathOf segs) (fun c hc => (hn.2.1 c hc).1)
      (pathOf_head segs)]
    dsimp only
    rw [if_neg hn.2.2]
    rw [splitFragment_exact (pathOf segs)
      (fun x hx => (pathOf_mem_facts segs hsegs x hx).2.1)]
    dsimp only
    rw [splitQuery_exact (pathOf segs)
      (fun x hx => (pathOf_mem_facts segs hsegs x hx).1)]
  unfold urlparseModel
  rw [hsplit]
  show (if ';' ∈ pathOf segs then _ else _) = _
  split
  · rw [splitparams_pathOf]
  · rfl

theorem pyStripWith_slash (m : List Char)
    (h1 : ∀ c, m.head? = some c → c ≠ '/')
    (h2 : ∀ c, m.getLast? = some c → c ≠ '/') :
    pyStripWith ['/'] ('/' :: m) = m := by
  unfold pyStripWith
  have hdrop : ('/' :: m).dropWhile (['/'].contains ·) = m := by
    rw [List.dropWhile_cons, if_pos (by decide)]
    cases m with
    | nil => rfl
    | cons c m' => rw [List.dropWhile_cons, if_neg (by simpa using h1 c rfl)]
  rw [hdrop]
  rcases List.eq_nil_or_concat m with rfl | ⟨init, c, hm⟩
  · rfl
  · rw [hm, List.concat_eq_append, List.reverse_append, List.reverse_cons, List.reverse_nil,
      List.nil_append, List.singleton_append, List.dropWhile_cons,
      if_neg (by simpa using h2 c (by rw [hm, List.concat_eq_append, List.getLast?_concat]))]
    simp

theorem segmentsOf_pathOf (segs : List (List Char)) (hsegs : ∀ s ∈ segs, segOK s) :
    segmentsOf (pathOf segs) = segs := by
  by_cases h : segs = []
  · subst h; decide
  · unfold segmentsOf pathOf
    rw [if_neg h]
    have h2 : '/' :: List.intercalate ['/'] segs ++ ['/']
        = '/' :: List.intercalate ['/'] (segs ++ [[]]) := by
      rw [intercalate_concat_nil '/' segs h]
      rfl
    rw [h2, List.splitOn, List.splitOnP_cons, if_pos (by rfl), ← List.splitOn,
      List.splitOn_intercalate (segs ++ [[]]) '/'
        (fun l hl hmem => by
          rcases List.mem_append.mp hl with hl1 | hl2
          · exact ((hsegs l hl1).2 '/' hmem).1 rfl
          · simp only [List.mem_singleton] at hl2
            subst hl2
            simp at hmem)
        (by simp)]
    rw [List.filter_cons_of_neg (by simp), List.filter_append,
      List.filter_eq_self.mpr (fun s hs => by simpa using (hsegs s hs).1)]
    simp

theorem finalize_path_parts (segs : List (List Char)) (hne : segs ≠ [])
    (hsegs : ∀ s ∈ segs, segOK s) :
    (pyStripWith ['/'] ('/' :: List.intercalate ['/'] segs)).splitOn '/' = segs
    ∧ ('/' :: List.intercalate ['/'] segs).getLast? ≠ some '/' := by
  obtain ⟨s0, rest, rfl⟩ : ∃ s0 rest, segs = s0 :: rest := by
    cases segs
    · exact absurd rfl hne
    · exact ⟨_, _, rfl⟩
  have hs0 : s0 ≠ [] := (hsegs s0 (by simp)).1
  obtain ⟨c0, cs0, rfl⟩ : ∃ c0 cs0, s0 = c0 :: cs0 := by
    cases s0
    · exact absurd rfl hs0
    · exact ⟨_, _, rfl⟩
  have hc0 : c0 ≠ '/' := ((hsegs (c0 :: cs0) (by simp)).2 c0 (by simp)).1
  have hhead : (List.intercalate ['/'] ((c0 :: cs0) :: rest)).head? = some c0 := by
    rw [intercalate_head '/' _ _ (by simp)]
    rfl
  obtain ⟨cl, hcl1, hcl2⟩ := intercalate_getLast '/' ((c0 :: cs0) :: rest) (by simp)
    (fun s hs => (hsegs s hs).1)
    (fun s hs hmem => ((hsegs s hs).2 '/' hmem).1 rfl)
  refine ⟨?_, ?_⟩
  · rw [pyStripWith_slash _
      (fun c hc => by rw [hhead] at hc; cases hc; exact hc0)
      (fun c hc => by rw [hcl2] at hc; cases hc; exact hcl1)]
    exact List.splitOn_intercalate _ '/'
      (fun l hl hmem => ((hsegs l hl).2 '/' hmem).1 rfl) (by simp)
  · rw [show '/' :: List.intercalate ['/'] ((c0 :: cs0) :: rest)
        = ['/'] ++ List.intercalate ['/'] ((c0 :: cs0) :: rest) from rfl,
      List.getLast?_append, hcl2]
    intro hcon
    simp only [Option.or_some, Option.some.injEq] at hcon
    exact hcl1 hcon

theorem finalize_path_fixed (segs : List (List Char)) (hsegs : ∀ s ∈ segs, segOK s)
    (hstable : stableSegs segs) :
    finalize_path ('/' :: List.intercalate ['/'] segs) = pathOf segs := by
  by_cases h : segs = []
  · subst h; decide
  · obtain ⟨hparts, hlast⟩ := finalize_path_parts segs h hsegs
    have hws : ('/' :: List.intercalate ['/'] segs) ++ ['/'] = pathOf segs := by
      unfold pathOf
      rw [if_neg h]
    unfold finalize_path
    rw [hparts, if_neg hlast]
    rcases segs with _ | ⟨a, _ | ⟨b, _ | ⟨c, rest⟩⟩⟩
    · exact absurd rfl h
    · exact hws
    · exact hws
    · show (if b = "companies".toList then _ else _) = _
      by_cases hb : b = "companies".toList
      · rw [if_pos hb]
        have harts : "articles".toList ∈ a :: b :: c :: rest := hstable hb
        rw [if_pos (by simpa using harts)]
        exact hws
      · rw [if_neg hb]
        exact hws

theorem normalizeChars_fixed (u : List Char) (hg : GoodUrl u) : normalizeChars u = .ok u := by
  obtain ⟨scheme, netloc, segs, hs, hn, hsegs, hstable, rfl⟩ := hg
  obtain ⟨c0, cs0, hscheme⟩ : ∃ c0 cs0, scheme = c0 :: cs0 := by
    cases scheme
    · exact absurd rfl hs.1
    · exact ⟨_, _, rfl⟩
  have hulast : (scheme ++ ':' :: '/' :: '/' :: netloc ++ pathOf segs).getLast? = some '/' := by
    obtain ⟨X, hX⟩ := pathOf_concat segs
    rw [hX, show scheme ++ ':' :: '/' :: '/' :: netloc ++ (X ++ ['/'])
        = (scheme ++ ':' :: '/' :: '/' :: netloc ++ X) ++ ['/'] from by simp,
      List.getLast?_concat]
  have hstrip : pyStrip (scheme ++ ':' :: '/' :: '/' :: netloc ++ pathOf segs)
      = scheme ++ ':' :: '/' :: '/' :: netloc ++ pathOf segs := by
    apply pyStripWith_noop
    · intro c hc
      rw [hscheme] at hc
      cases hc
      exact (schemeChars_facts c0 (hs.2.1 c0 (by rw [hscheme]; simp))).2.2.2.1
    · intro c hc
      rw [hulast] at hc
      cases hc
      decide
  rw [normalizeChars,
    if_neg (show ¬(scheme ++ ':' :: '/' :: '/' :: netloc ++ pathOf segs = []) from by
      rw [hscheme]; simp),
    hstrip, urlparseModel_exact scheme netloc segs hs hn hsegs]
  show Except.ok (urlunparseModel
      (if scheme = [] then "https".toList else scheme)
      (if netloc = [] then "habr.com".toList else netloc)
      (finalize_path ('/' :: List.intercalate ['/']
        (segmentsOf (if pathOf segs = [] then ['/'] else pathOf segs)))) [] [] []) = _
  rw [if_neg hs.1, if_neg hn.1,
    if_neg (show ¬(pathOf segs = []) from fun hcon => by
      have := pathOf_head segs
      rw [hcon] at this
      cases this),
    segmentsOf_pathOf segs hsegs, finalize_path_fixed segs hsegs hstable,
    urlunparse_assemble scheme netloc (pathOf segs) hs.1 hn.1 (pathOf_head segs)]

/-! Analysis of the `urlsplit` components on arbitrary input. -/

theorem splitScheme_spec (url : List Char) :
    ((splitScheme url).1 = [] ∧ (splitScheme url).2 = url)
    ∨ (schemeOK (splitScheme url).1 ∧ ∃ before, url = before ++ ':' :: (splitScheme url).2) := by
  cases hsp : splitAtFirst (fun c => c == ':') url with
  | none =>
    left
    constructor <;> simp [splitScheme, hsp]
  | some ab =>
    obtain ⟨before, after⟩ := ab
    obtain ⟨⟨c, hc, hurl⟩, hall⟩ := splitAtFirst_some_spec _ hsp
    have hc' : c = ':' := by simpa using hc
    subst hc'
    by_cases hcond : before ≠ [] ∧ before.head?.elim false Char.isAlpha = true ∧
        (before.all fun c => schemeChars.contains c) = true
    · have h1 : splitScheme url = (before.map Char.toLower, after) := by
        rw [splitScheme, hsp]
        dsimp only
        rw [if_pos hcond]
      right
      rw [h1]
      have hmem : ∀ c ∈ before, c ∈ schemeChars := by
        intro c hcm
        have := List.all_eq_true.mp hcond.2.2 c hcm
        simpa using this
      refine ⟨⟨?_, ?_, ?_, ?_⟩, ⟨before, hurl⟩⟩
      · simpa using hcond.1
      · intro c hcm
        obtain ⟨c', hc', rfl⟩ := List.mem_map.mp hcm
        exact (schemeChars_facts c' (hmem c' hc')).1
      · obtain ⟨b0, brest, rfl⟩ : ∃ b0 brest, before = b0 :: brest := by
          cases before
          · exact absurd rfl hcond.1
          · exact ⟨_, _, rfl⟩
        have hb0 : b0 ∈ schemeChars := hmem b0 (by simp)
        have halpha : b0.isAlpha = true := by simpa using hcond.2.1
        show (Char.toLower b0).isAlpha = true
        exact (schemeChars_facts b0 hb0).2.2.1 halpha
      · rw [List.map_map]
        exact List.map_congr_left fun c hcm => (schemeChars_facts c (hmem c hcm)).2.1
    · have h1 : splitScheme url = ([], url) := by
        rw [splitScheme, hsp]
        dsimp only
        rw [if_neg hcond]
      left
      rw [h1]
      exact ⟨rfl, rfl⟩

theorem splitScheme_snd_subset (url : List Char) : ∀ c ∈ (splitScheme url).2, c ∈ url := by
  rcases splitScheme_spec url with ⟨_, h2⟩ | ⟨_, before, hurl⟩
  · rw [h2]
    exact fun c hc => hc
  · intro c hc
    rw [hurl]
    exact List.mem_append.mpr (.inr (List.mem_cons_of_mem _ hc))

theorem splitNetloc_spec (rest : List Char) :
    ((splitNetloc rest).1 = [] ∧ (splitNetloc rest).2 = rest)
    ∨ ((∀ c ∈ (splitNetloc rest).1, (['/', '?', '#'].contains c) = false)
        ∧ (∀ c ∈ (splitNetloc rest).1, c ∈ rest) ∧ ∀ c ∈ (splitNetloc rest).2, c ∈ rest) := by
  unfold splitNetloc
  split
  · right
    dsimp only
    refine ⟨?_, ?_, ?_⟩
    · intro c hc
      have := List.mem_takeWhile_imp hc
      simpa using this
    · intro c hc
      exact List.drop_subset _ _ ((List.takeWhile_prefix _).subset hc)
    · intro c hc
      exact List.drop_subset _ _ ((List.dropWhile_sublist _).subset hc)
  · left
    exact ⟨rfl, rfl⟩

theorem splitFragment_spec (u : List Char) :
    (∀ c ∈ (splitFragment u).1, c ≠ '#') ∧ ∀ c ∈ (splitFragment u).1, c ∈ u := by
  unfold splitFragment
  cases hsp : splitAtFirst (fun c => c == '#') u with
  | none =>
    dsimp only
    exact ⟨fun c hc => by simpa using splitAtFirst_none_spec _ hsp c hc, fun c hc => hc⟩
  | some ab =>
    obtain ⟨a, b⟩ := ab
    obtain ⟨⟨c0, hc0, hu⟩, hall⟩ := splitAtFirst_some_spec _ hsp
    dsimp only
    exact ⟨fun c hc => by simpa using hall c hc,
           fun c hc => by rw [hu]; exact List.mem_append.mpr (.inl hc)⟩

theorem splitQuery_spec (u : List Char) :
    (∀ c ∈ (splitQuery u).1, c ≠ '?') ∧ ∀ c ∈ (splitQuery u).1, c ∈ u := by
  unfold splitQuery
  cases hsp : splitAtFirst (fun c => c == '?') u with
  | none =>
    dsimp only
    exact ⟨fun c hc => by simpa using splitAtFirst_none_spec _ hsp c hc, fun c hc => hc⟩
  | some ab =>
    obtain ⟨a, b⟩ := ab
    obtain ⟨⟨c0, hc0, hu⟩, hall⟩ := splitAtFirst_some_spec _ hsp
    dsimp only
    exact ⟨fun c hc => by simpa using hall c hc,
           fun c hc => by rw [hu]; exact List.mem_append.mpr (.inl hc)⟩

theorem splitparams_fst_subset (x : List Char) : ∀ c ∈ (splitparams x).1, c ∈ x := by
  unfold splitparams
  split
  · cases h1 : splitAtFirst (fun c => c == '/') x.reverse with
    | none =>
      dsimp only
      exact fun c hc => hc
    | some rt =>
      obtain ⟨revTail, revInit⟩ := rt
      dsimp only
      cases h2 : splitAtFirst (fun c => c == ';') revTail.reverse with
      | none =>
        dsimp only
        exact fun c hc => hc
      | some ab =>
        obtain ⟨a, b⟩ := ab
        obtain ⟨⟨c0, hc0, hxrev⟩, -⟩ := splitAtFirst_some_spec _ h1
        have hc0' : c0 = '/' := by simpa using hc0
        subst hc0'
        obtain ⟨⟨c1, hc1, htail⟩, -⟩ := splitAtFirst_some_spec _ h2
        have hx : x = revInit.reverse ++ '/' :: revTail.reverse := by
          have h3 := congrArg List.reverse hxrev
          simpa using h3
        dsimp only
        intro c hc
        rw [hx]
        rcases List.mem_append.mp hc with hcl | hcr
        · exact List.mem_append.mpr (.inl hcl)
        · rcases List.mem_cons.mp hcr with rfl | hca
          · exact List.mem_append.mpr (.inr (by simp))
          · refine List.mem_append.mpr (.inr ?_)
            simp only [List.mem_cons]
            right
            rw [htail]
            exact List.mem_append.mpr (.inl hca)
  · cases h2 : splitAtFirst (fun c => c == ';') x with
    | none =>
      dsimp only
      exact fun c hc => hc
    | some ab =>
      obtain ⟨a, b⟩ := ab
      obtain ⟨⟨c1, hc1, hx⟩, -⟩ := splitAtFirst_some_spec _ h2
      dsimp only
      intro c hc
      rw [hx]
      exact List.mem_append.mpr (.inl hc)

theorem urlsplitModel_ok_props (l : List Char) (r : UrlSplitResult)
    (h : urlsplitModel l = .ok r) :
    (r.scheme = [] ∨ schemeOK r.scheme)
    ∧ (r.netloc = [] ∨ netlocOK r.netloc)
    ∧ (∀ c ∈ r.path, c ≠ '?' ∧ c ≠ '#' ∧ tabCrLf.contains c = false) := by
  simp only [urlsplitModel] at h
  have hu1 : ∀ c ∈ l.filter (fun c => !(tabCrLf.contains c)), tabCrLf.contains c = false := by
    intro c hc
    have h2 := (List.mem_filter.mp hc).2
    simpa using h2
  split at h
  · simp at h
  · next hbr =>
    have hr : r = ⟨(splitScheme (l.filter (fun c => !(tabCrLf.contains c)))).1,
        (splitNetloc (splitScheme (l.filter (fun c => !(tabCrLf.contains c)))).2).1,
        (splitQuery (splitFragment
          (splitNetloc (splitScheme (l.filter (fun c => !(tabCrLf.contains c)))).2).2).1).1,
        [],
        (splitQuery (splitFragment
          (splitNetloc (splitScheme (l.filter (fun c => !(tabCrLf.contains c)))).2).2).1).2,
        (splitFragment
          (splitNetloc (splitScheme (l.filter (fun c => !(tabCrLf.contains c)))).2).2).2⟩ := by
      have h3 := h.symm
      simpa using h3
    subst hr
    refine ⟨?_, ?_, ?_⟩
    · rcases splitScheme_spec (l.filter (fun c => !(tabCrLf.contains c))) with ⟨h1, -⟩ | ⟨h1, -⟩
      · exact .inl h1
      · exact .inr h1
    · by_cases hne : (splitNetloc (splitScheme (l.filter (fun c => !(tabCrLf.contains c)))).2).1 = []
      · exact .inl hne
      · rcases splitNetloc_spec (splitScheme (l.filter (fun c => !(tabCrLf.contains c)))).2 with
          ⟨h1, -⟩ | ⟨h1, h2, -⟩
        · exact absurd h1 hne
        · refine .inr ⟨hne, fun c hc => ⟨h1 c hc, ?_⟩, hbr⟩
          exact hu1 c (splitScheme_snd_subset _ c (h2 c hc))
    · intro c hc
      obtain ⟨hq, hqsub⟩ := splitQuery_spec (splitFragment
        (splitNetloc (splitScheme (l.filter (fun c => !(tabCrLf.contains c)))).2).2).1
      obtain ⟨hf, hfsub⟩ := splitFragment_spec
        (splitNetloc (splitScheme (l.filter (fun c => !(tabCrLf.contains c)))).2).2
      have hc1 := hqsub c hc
      have hc2 := hfsub c hc1
      have hc3 : c ∈ (splitScheme (l.filter (fun c => !(tabCrLf.contains c)))).2 := by
        rcases splitNetloc_spec (splitScheme (l.filter (fun c => !(tabCrLf.contains c)))).2 with
          ⟨-, h2⟩ | ⟨-, -, h2⟩
        · rw [← h2]
          exact hc2
        · exact h2 c hc2
      exact ⟨hq c hc, hf c hc1, hu1 c (splitScheme_snd_subset _ c hc3)⟩

theorem urlparseModel_ok_props (l : List Char) (p : UrlSplitResult)
    (h : urlparseModel l = .ok p) :
    (p.scheme = [] ∨ schemeOK p.scheme)
    ∧ (p.netloc = [] ∨ netlocOK p.netloc)
    ∧ (∀ c ∈ p.path, c ≠ '?' ∧ c ≠ '#' ∧ tabCrLf.contains c = false) := by
  unfold urlparseModel at h
  cases hs : urlsplitModel l with
  | error e =>
    rw [hs] at h
    simp at h
  | ok r =>
    rw [hs] at h
    have h' : (if ';' ∈ r.path then
        Except.ok { r with path := (splitparams r.path).1, params := (splitparams r.path).2 }
        else Except.ok r) = Except.ok p := h
    obtain ⟨hrs, hrn, hrp⟩ := urlsplitModel_ok_props l r hs
    have hpr : p.scheme = r.scheme ∧ p.netloc = r.netloc ∧ ∀ c ∈ p.path, c ∈ r.path := by
      split at h'
      · have h2 := Except.ok.inj h'
        rw [← h2]
        exact ⟨rfl, rfl, fun c hc => splitparams_fst_subset r.path c hc⟩
      · have h2 := Except.ok.inj h'
        rw [← h2]
        exact ⟨rfl, rfl, fun c hc => hc⟩
    rw [hpr.1, hpr.2.1]
    exact ⟨hrs, hrn, fun c hc => hrp c (hpr.2.2 c hc)⟩

theorem segmentsOf_segOK (path0 : List Char)
    (hchars : ∀ c ∈ path0, c ≠ '?' ∧ c ≠ '#' ∧ tabCrLf.contains c = false) :
    ∀ s ∈ segmentsOf path0, segOK s := by
  intro s hs
  unfold segmentsOf at hs
  have h1 := List.mem_filter.mp hs
  refine ⟨by simpa using h1.2, ?_⟩
  intro c hc
  rw [List.splitOn] at h1
  have h2 := mem_of_mem_splitOnP _ _ s h1.1 c hc
  have h3 := hchars c h2.1
  exact ⟨by simpa using h2.2, h3.1, h3.2.1, h3.2.2⟩

theorem finalize_path_cases (segs : List (List Char)) (hsegs : ∀ s ∈ segs, segOK s) :
    ∃ fsegs, (∀ s ∈ fsegs, segOK s) ∧ stableSegs fsegs ∧
      finalize_path ('/' :: List.intercalate ['/'] segs) = pathOf fsegs := by
  by_cases hne : segs = []
  · subst hne
    exact ⟨[], by simp, trivial, by decide⟩
  · obtain ⟨hparts, hlast⟩ := finalize_path_parts segs hne hsegs
    have hws : ('/' :: List.intercalate ['/'] segs) ++ ['/'] = pathOf segs := by
      unfold pathOf
      rw [if_neg hne]
    unfold finalize_path
    rw [hparts, if_neg hlast]
    rcases segs with _ | ⟨a, _ | ⟨b, _ | ⟨c, rest⟩⟩⟩
    · exact absurd rfl hne
    · exact ⟨[a], hsegs, trivial, hws⟩
    · exact ⟨[a, b], hsegs, trivial, hws⟩
    · by_cases hb : b = "companies".toList
      · by_cases hart : "articles".toList ∈ a :: b :: c :: rest
        · refine ⟨a :: b :: c :: rest, hsegs, fun _ => hart, ?_⟩
          show (if b = "companies".toList then _ else _) = _
          rw [if_pos hb, if_pos (by simpa using hart)]
          exact hws
        · refine ⟨[a, b, c, "articles".toList], ?_, ?_, ?_⟩
          · intro s hs
            simp only [List.mem_cons, List.not_mem_nil, or_false] at hs
            rcases hs with rfl | rfl | rfl | rfl
            · exact hsegs _ (by simp)
            · exact hsegs _ (by simp)
            · exact hsegs _ (by simp)
            · exact ⟨by decide, by decide⟩
          · intro _
            simp
          · show (if b = "companies".toList then _ else _) = _
            rw [if_pos hb, if_neg (by simpa using hart)]
            show '/' :: List.intercalate ['/'] ((a :: b :: c :: rest).take 3
              ++ ["articles".toList]) ++ ['/'] = _
            rw [show (a :: b :: c :: rest).take 3 = [a, b, c] from rfl]
            unfold pathOf
            rw [if_neg (by simp)]
            rfl
      · refine ⟨a :: b :: c :: rest, hsegs, fun hcon => absurd hcon hb, ?_⟩
        show (if b = "companies".toList then _ else _) = _
        rw [if_neg hb]
        exact hws

theorem normalizeChars_ok_good (raw u : List Char) (h : normalizeChars raw = .ok u) :
    GoodUrl u := by
  rw [normalizeChars] at h
  split at h
  · exact absurd h (by simp)
  · cases hp : urlparseModel (pyStrip raw) with
    | error e =>
      rw [hp] at h
      simp at h
    | ok p =>
      rw [hp] at h
      have hu : urlunparseModel
          (if p.scheme = [] then "https".toList else p.scheme)
          (if p.netloc = [] then "habr.com".toList else p.netloc)
          (finalize_path ('/' :: List.intercalate ['/']
            (segmentsOf (if p.path = [] then ['/'] else p.path)))) [] [] [] = u := by
        simpa using h
      obtain ⟨hps, hpn, hpp⟩ := urlparseModel_ok_props _ p hp
      have hpath0 : ∀ c ∈ (if p.path = [] then ['/'] else p.path),
          c ≠ '?' ∧ c ≠ '#' ∧ tabCrLf.contains c = false := by
        split
        · intro c hc
          simp only [List.mem_singleton] at hc
          subst hc
          exact ⟨by decide, by decide, by decide⟩
        · exact hpp
      obtain ⟨fsegs, hfs, hstable, hfin⟩ := finalize_path_cases
        (segmentsOf (if p.path = [] then ['/'] else p.path))
        (segmentsOf_segOK _ hpath0)
      have hsok : schemeOK (if p.scheme = [] then "https".toList else p.scheme) := by
        split
        · exact ⟨by decide, by decide, by decide, by decide⟩
        · next hne =>
          rcases hps with hnil | hok
          · exact absurd hnil hne
          · exact hok
      have hnok : netlocOK (if p.netloc = [] then "habr.com".toList else p.netloc) := by
        split
        · exact ⟨by decide, by decide, by decide⟩
        · next hne =>
          rcases hpn with hnil | hok
          · exact absurd hnil hne
          · exact hok
      refine ⟨(if p.scheme = [] then "https".toList else p.scheme),
              (if p.netloc = [] then "habr.com".toList else p.netloc), fsegs,
              hsok, hnok, hfs, hstable, ?_⟩
      rw [← hu, hfin]
      exact urlunparse_assemble _ _ _ hsok.1 hnok.1 (pathOf_head fsegs)

theorem urlsplitModel_error_ipv6 (l : List Char) (e : NormError)
    (h : urlsplitModel l = .error e) : e = .invalidIPv6 := by
  simp only [urlsplitModel] at h
  split at h
  · exact (Except.error.inj h).symm
  · simp at h

theorem urlparseModel_error_ipv6 (l : List Char) (e : NormError)
    (h : urlparseModel l = .error e) : e = .invalidIPv6 := by
  unfold urlparseModel at h
  cases hs : urlsplitModel l with
  | error e2 =>
    rw [hs] at h
    have h2 : (Except.error e2 : Except NormError UrlSplitResult) = .error e := h
    rw [← Except.error.inj h2]
    exact urlsplitModel_error_ipv6 l e2 hs
  | ok r =>
    rw [hs] at h
    have h' : (if ';' ∈ r.path then
        Except.ok { r with path := (splitparams r.path).1, params := (splitparams r.path).2 }
        else Except.ok r) = .error e := h
    split at h' <;> simp at h'

theorem string_empty_iff_toList (s : String) : s = "" ↔ s.toList = [] := by
  constructor
  · intro h
    rw [h]
    rfl
  · intro h
    cases s with
    | mk l => rw [show l = [] from h]

theorem normalize_ok_toList (raw u : String)
    (h : normalize_company_articles_url raw = .ok u) :
    normalizeChars raw.toList = .ok u.toList := by
  unfold normalize_company_articles_url at h
  cases hc : normalizeChars raw.toList with
  | error e =>
    rw [hc] at h
    exact absurd h (by simp [Except.map])
  | ok v =>
    rw [hc] at h
    have h2 : String.mk v = u := Except.ok.inj h
    rw [← h2]
    rfl

theorem goodUrl_no_query_fragment (u : List Char) (hg : GoodUrl u) :
    '?' ∉ u ∧ '#' ∉ u := by
  obtain ⟨scheme, netloc, segs, hs, hn, hsegs, -, rfl⟩ := hg
  have hgen : ∀ c ∈ scheme ++ ':' :: '/' :: '/' :: netloc ++ pathOf segs,
      c ≠ '?' ∧ c ≠ '#' := by
    intro c hc
    rcases List.mem_append.mp hc with h1 | h5
    · rcases List.mem_append.mp h1 with h2 | h3
      · have hf := schemeChars_facts c (hs.2.1 c h2)
        exact ⟨hf.2.2.2.2.2.2.1, hf.2.2.2.2.2.2.2.1⟩
      · simp only [List.mem_cons] at h3
        rcases h3 with rfl | rfl | rfl | h4
        · exact ⟨by decide, by decide⟩
        · exact ⟨by decide, by decide⟩
        · exact ⟨by decide, by decide⟩
        · have hcont := (hn.2.1 c h4).1
          constructor
          · intro hq
            subst hq
            simp at hcont
          · intro hq
            subst hq
            simp at hcont
    · have hf := pathOf_mem_facts segs hsegs c h5
      exact ⟨hf.1, hf.2.1⟩
  exact ⟨fun hmem => (hgen '?' hmem).1 rfl, fun hmem => (hgen '#' hmem).2 rfl⟩

/-! ## Claim theorems -/

/-- Claim C5: whenever the fetch of page 1 fails, the scrape returns the empty
sequence and the only URL it ever requested is the listing URL itself (no
further page fetches are issued). -/
theorem scrape_aborts_without_first_page (net : String → FetchOutcome Node) (url : String)
    (h : fetch_html (net url) = none) :
    scrape_company_articles net url = [] ∧ scrape_requests net url = [url] := by
  constructor <;> simp [scrape_company_articles, scrape_requests, h]

theorem scrape_aborts_without_first_page_witness :
    scrape_company_articles (fun _ => FetchOutcome.timeout) "https://habr.com/ru/x/" = []
    ∧ scrape_requests (fun _ => FetchOutcome.timeout) "https://habr.com/ru/x/"
        = ["https://habr.com/ru/x/"] :=
  scrape_aborts_without_first_page (fun _ => FetchOutcome.timeout)
    "https://habr.com/ru/x/" rfl

/-- Claim C6 counterexample: a `304` response is non-2xx, yet `fetch_html`
returns its body rather than an explicit failure (`raise_for_status` only
raises for statuses `≥ 400`), so "every non-2xx status yields failure" is
false on the code. -/
theorem fetch_non2xx_counterexample :
    ¬(200 ≤ 304 ∧ 304 < 300)
    ∧ fetch_html (FetchOutcome.response 304 "not-modified") = some "not-modified"
    ∧ fetch_html (FetchOutcome.response 304 "not-modified") ≠ none := by
  refine ⟨by decide, rfl, by decide⟩

/-- Claim C6 (amended): for every outcome of the underlying request,
`fetch_html` returns without propagating the error, and it returns failure
exactly on a network error, a timeout, or a response status `≥ 400`; a
response with status `< 400` (2xx, but also 1xx/3xx) returns its body. -/
theorem fetch_failure_exactly_on_error_or_4xx {α : Type} (o : FetchOutcome α) :
    (fetch_html o = none ↔
      o = .timeout ∨ (∃ m, o = .netError m) ∨ (∃ s b, o = .response s b ∧ 400 ≤ s))
    ∧ (∀ s b, o = .response s b → s < 400 → fetch_html o = some b) := by
  constructor
  · constructor
    · intro h
      cases o with
      | response s b =>
        refine .inr (.inr ⟨s, b, rfl, ?_⟩)
        by_contra hs
        simp [fetch_html, hs] at h
      | netError m => exact .inr (.inl ⟨m, rfl⟩)
      | timeout => exact .inl rfl
    · rintro (rfl | ⟨m, rfl⟩ | ⟨s, b, rfl, hs⟩) <;> simp [fetch_html, *]
  · rintro s b rfl hs
    simp [fetch_html, Nat.not_le.mpr hs]

theorem fetch_failure_exactly_on_error_or_4xx_witness :
    fetch_html (FetchOutcome.timeout (α := String)) = none
    ∧ fetch_html (FetchOutcome.response 200 "body") = some "body" := by
  constructor
  · exact (fetch_failure_exactly_on_error_or_4xx (FetchOutcome.timeout (α := String))).1.mpr
      (Or.inl rfl)
  · exact (fetch_failure_exactly_on_error_or_4xx (FetchOutcome.response 200 "body")).2
      200 "body" rfl (by decide)

/-- Claim C8: pagination detection always returns an integer, and returns 1
when no pagination container is found, when the container has no page links,
and when the last link's text does not parse as an integer. -/
theorem pagination_defaults_to_one (doc : Node) :
    (find_pagination_block doc = none → parse_pagination_last_page doc = 1)
    ∧ (∀ pb, find_pagination_block doc = some pb → page_links pb = [] →
        parse_pagination_last_page doc = 1)
    ∧ (∀ pb lk, find_pagination_block doc = some pb →
        (page_links pb).getLast? = some lk →
        pyIntS (pyStripS lk.innerText) = none →
        parse_pagination_last_page doc = 1) := by
  refine ⟨fun h => ?_, fun pb h1 h2 => ?_, fun pb lk h1 h2 h3 => ?_⟩ <;>
    simp [parse_pagination_last_page, *]

def docNoPagination : Node :=
  .elem "html" [] [.elem "body" [] [.text "no pages"]]

def docEmptyPagination : Node :=
  .elem "html" [] [.elem "div" [("class", "tm-pagination"), ("data-test-id", "pagination")]
    [.text "nothing"]]

def docBadPagination : Node :=
  .elem "html" [] [.elem "div" [("class", "tm-pagination"), ("data-test-id", "pagination")]
    [.elem "a" [("class", "tm-pagination__page")] [.text "next"]]]

theorem pagination_defaults_to_one_witness :
    parse_pagination_last_page docNoPagination = 1
    ∧ parse_pagination_last_page docEmptyPagination = 1
    ∧ parse_pagination_last_page docBadPagination = 1 := by
  refine ⟨(pagination_defaults_to_one docNoPagination).1 rfl,
    (pagination_defaults_to_one docEmptyPagination).2.1 _ rfl rfl,
    (pagination_defaults_to_one docBadPagination).2.2 _
      (Node.elem "a" [("class", "tm-pagination__page")] [.text "next"]) rfl rfl rfl⟩

/-- Claim C9: per-page extraction is a total function equal to mapping the
(possibly failing) block parser over the article containers and dropping the
failures; in particular a failure on one container removes only that
container's contribution, extraction of every other container proceeding. -/
theorem extractor_skips_failing_container
    (p : Node → Except String ArticleRecord) (doc : Node) :
    parse_articles_list_with p doc
      = (article_blocks doc).flatMap (fun b =>
          match p b with
          | .ok r => [r]
          | .error _ => [])
    ∧ ∀ pre bad post e, article_blocks doc = pre ++ bad :: post → p bad = .error e →
        parse_articles_list_with p doc
          = (pre.flatMap fun b =>
              match p b with
              | .ok r => [r]
              | .error _ => [])
            ++ (post.flatMap fun b =>
                match p b with
                | .ok r => [r]
                | .error _ => []) := by
  have hbase : parse_articles_list_with p doc
      = (article_blocks doc).flatMap (fun b =>
          match p b with
          | .ok r => [r]
          | .error _ => []) := by
    simpa [parse_articles_list_with] using foldl_skip_eq_flatMap p (article_blocks doc) []
  refine ⟨hbase, fun pre bad post e hsplit hbad => ?_⟩
  rw [hbase, hsplit]
  simp [hbad]

def articleBlockW (tag : String) : Node :=
  .elem "article" [("class", "tm-articles-list__item"), ("id", tag)]
    [.elem "h2" [("class", "tm-title tm-title_h2"), ("data-test-id", "articleTitle")]
      [.elem "span" [] [.text tag]]]

def threeBlockDoc : Node :=
  .elem "[document]" [] [articleBlockW "a", articleBlockW "bad", articleBlockW "c"]

def failOnBad : Node → Except String ArticleRecord := fun b =>
  if b.attr "id" = some "bad" then .error "boom" else .ok (parse_article_block b)

/-- The page numbers a scrape visits, ascending: page 1, then `range(2, N+1)`. -/
def ascendingPages (last : Int) : List Int :=
  1 :: (if 1 < last then pageNums last else [])

/-- The records one page contributes: page 1 is the listing URL itself, page
`n ≥ 2` is the `page{n}/` URL; a failed fetch contributes nothing. -/
def page_records (net : String → FetchOutcome Node) (base : String) (n : Int) :
    List ArticleRecord :=
  match fetch_html (net (if n = 1 then base else page_url base n)) with
  | none => []
  | some h => parse_articles_list h

theorem mem_pageNums_two_le {last n : Int} (h : n ∈ pageNums last) : 2 ≤ n := by
  simp only [pageNums, List.mem_map, List.mem_range] at h
  obtain ⟨i, -, rfl⟩ := h
  omega

theorem page_records_ne_one (net : String → FetchOutcome Node) (base : String)
    {n : Int} (hn : n ≠ 1) :
    page_records net base n
      = match fetch_html (net (page_url base n)) with
        | none => []
        | some h => parse_articles_list h := by
  simp [page_records, hn]

/-- Claim C1: when page 1's fetch succeeds, the scrape result is the
concatenation, over the strictly ascending page list `1, 2, ..., N`, of each
page's contribution, a failed page contributing nothing (and, the model being
a total function, surfacing no exception); in particular with `N = 3`, page 2
failed and page 3 fetched, the result is page 1's records followed by
page 3's. -/
theorem scrape_concat_in_page_order (net : String → FetchOutcome Node) (url : String)
    (h1 : Node) (hf : fetch_html (net url) = some h1) :
    scrape_company_articles net url
      = (ascendingPages (parse_pagination_last_page h1)).flatMap (page_records net url)
    ∧ (ascendingPages (parse_pagination_last_page h1)).Pairwise (· < ·)
    ∧ (parse_pagination_last_page h1 = 3 →
        fetch_html (net (page_url url 2)) = none →
        ∀ h3, fetch_html (net (page_url url 3)) = some h3 →
        scrape_company_articles net url = parse_articles_list h1 ++ parse_articles_list h3) := by
  have hrec1 : page_records net url 1 = parse_articles_list h1 := by
    simp [page_records, hf]
  have hmain : scrape_company_articles net url
      = (ascendingPages (parse_pagination_last_page h1)).flatMap (page_records net url) := by
    by_cases hN : 1 < parse_pagination_last_page h1
    · simp only [scrape_company_articles, hf, if_pos hN, ascendingPages, List.flatMap_cons,
        hrec1]
      congr 1
      refine (List.flatMap_congr fun n hn => ?_).symm
      exact page_records_ne_one net url (by have := mem_pageNums_two_le hn; omega)
    · simp [scrape_company_articles, hf, hN, ascendingPages, hrec1]
  refine ⟨hmain, ?_, ?_⟩
  · unfold ascendingPages
    split
    · refine List.pairwise_cons.mpr ⟨fun b hb => ?_, ?_⟩
      · have := mem_pageNums_two_le hb; omega
      · unfold pageNums
        rw [List.pairwise_map]
        refine (List.pairwise_lt_range _).imp ?_
        intro a b hab
        omega
    · simp
  · intro h3eq hp2 h3 hp3
    have hpn : pageNums (parse_pagination_last_page h1) = [2, 3] := by
      rw [h3eq]; decide
    have h13 : (1 : Int) < parse_pagination_last_page h1 := by rw [h3eq]; decide
    simp [scrape_company_articles, hf, if_pos h13, hpn, hp2, hp3]

def articlePage1W : Node :=
  .elem "[document]" []
    [articleBlockW "first",
     .elem "div" [("class", "tm-pagination"), ("data-test-id", "pagination")]
       [.elem "a" [("class", "tm-pagination__page")] [.text "1"],
        .elem "a" [("class", "tm-pagination__page")] [.text "2"],
        .elem "a" [("class", "tm-pagination__page")] [.text "3"]]]

def articlePage3W : Node :=
  .elem "[document]" [] [articleBlockW "third"]

def scrapeBaseW : String := "https://habr.com/ru/companies/acme/articles/"

def scrapeNetW : String → FetchOutcome Node := fun u =>
  if u = scrapeBaseW then .response 200 articlePage1W
  else if u = page_url scrapeBaseW 3 then .response 200 articlePage3W
  else .timeout

theorem scrape_concat_in_page_order_witness :
    scrape_company_articles scrapeNetW scrapeBaseW
      = parse_articles_list articlePage1W ++ parse_articles_list articlePage3W := by
  have h := (scrape_concat_in_page_order scrapeNetW scrapeBaseW articlePage1W rfl).2.2
    (by decide) rfl articlePage3W rfl
  exact h

/-- Claim C3 counterexample: on `"0123456789Xab:cdT99:99"` the parse fails and
the code's fallback time is `"99:99"` (five characters after the first `"T"`),
which is neither the attribute's characters 11-16 (`"ab:cd"`, or `"Xab:cd"`
under 1-based indexing) nor the sentinel, refuting the claimed fallback. -/
theorem datetime_fallback_counterexample :
    fromisoformat (replaceZ "0123456789Xab:cdT99:99".toList) = none
    ∧ parse_datetime_attr "0123456789Xab:cdT99:99".toList
        = ("0123456789".toList, "99:99".toList)
    ∧ ("0123456789Xab:cdT99:99".toList.drop 11).take 5 = "ab:cd".toList
    ∧ ("0123456789Xab:cdT99:99".toList.drop 10).take 6 = "Xab:cd".toList
    ∧ "99:99".toList ≠ "ab:cd".toList
    ∧ "99:99".toList ≠ "Xab:cd".toList
    ∧ "99:99".toList ≠ sentinel.toList := by
  exact ⟨rfl, rfl, rfl, rfl, by decide, by decide, by decide⟩

/-- Claim C3 (amended): when the (Z-normalized) timestamp attribute parses,
the date is the instant formatted `%Y-%m-%d` and the time `%H:%M` (so
`"2024-03-05T14:30:00Z"` yields `("2024-03-05", "14:30")`); when it fails to
parse, the date is the attribute's first 10 characters and the time is the
first five characters of the segment between the first and second `"T"`, or
the sentinel when the attribute contains no `"T"` at all. -/
theorem datetime_extraction_spec (iso : List Char) :
    (∀ dt, fromisoformat (replaceZ iso) = some dt →
      parse_datetime_attr iso = ((fmtDate dt).toList, (fmtTime dt).toList))
    ∧ (fromisoformat (replaceZ iso) = none →
        (parse_datetime_attr iso).1 = iso.take 10
        ∧ (∀ a b, iso = a ++ 'T' :: b → 'T' ∉ a →
            (parse_datetime_attr iso).2 = (b.takeWhile (fun c => !(c == 'T'))).take 5)
        ∧ ('T' ∉ iso → (parse_datetime_attr iso).2 = sentinel.toList))
    ∧ parse_datetime_attr "2024-03-05T14:30:00Z".toList
        = ("2024-03-05".toList, "14:30".toList) := by
  refine ⟨fun dt h => by simp [parse_datetime_attr, h], fun h => ⟨?_, ?_, ?_⟩, rfl⟩
  · simp [parse_datetime_attr, h]
  · rintro a b rfl ha
    obtain ⟨tl, htl⟩ := splitOnP_head_cons (fun c => c == 'T') b
    have hsplit : (a ++ 'T' :: b).splitOn 'T'
        = a :: b.takeWhile (fun c => !(c == 'T')) :: tl := by
      rw [List.splitOn, List.splitOnP_first _ _ ?_ 'T' (by simp)]
      · rw [← List.splitOn, List.splitOn] at htl ⊢
        rw [htl]
      · intro x hx
        simp only [beq_iff_eq]
        exact fun hxe => ha (hxe ▸ hx)
    simp [parse_datetime_attr, h, hsplit]
  · intro hT
    have hsingle : iso.splitOn 'T' = [iso] := by
      rw [List.splitOn]
      refine List.splitOnP_eq_single _ _ fun x hx => ?_
      simp only [beq_iff_eq]
      exact fun hxe => hT (hxe ▸ hx)
    simp [parse_datetime_attr, h, hsingle]

theorem datetime_extraction_spec_witness :
    parse_datetime_attr "2024-03-05T14:30:00Z".toList
      = ("2024-03-05".toList, "14:30".toList)
    ∧ (parse_datetime_attr "not-a-date".toList).1 = "not-a-date".toList.take 10
    ∧ (parse_datetime_attr "not-a-date".toList).2 = sentinel.toList := by
  refine ⟨(datetime_extraction_spec "2024-03-05T14:30:00Z".toList).2.2, ?_, ?_⟩
  · exact ((datetime_extraction_spec "not-a-date".toList).2.1 (by decide)).1
  · exact ((datetime_extraction_spec "not-a-date".toList).2.1 (by decide)).2.2 (by decide)

/-! Per-field fallback lemmas for `parse_article_block`. -/

theorem url_of_spec (b : Node) :
    url_of b = sentinel ∨ ∃ le href, find_link_element b = some le ∧
      le.attr "href" = some href ∧ href ≠ "" ∧ url_of b = BASE_URL ++ href := by
  rcases heq : find_link_element b with _ | le
  · left; simp [url_of, heq]
  · rcases hh : le.attr "href" with _ | h
    · left; simp [url_of, heq, hh]
    · by_cases he : h = ""
      · left; simp [url_of, heq, hh, he]
      · right; exact ⟨le, h, rfl, hh, he, by simp [url_of, heq, hh, he]⟩

theorem title_of_spec (b : Node) :
    title_of b = sentinel ∨ ∃ te sp, find_title_element b = some te ∧
      findFirst (matchesTag "span" none []) te = some sp ∧
      title_of b = pyStripS sp.innerText := by
  rcases heq : find_title_element b with _ | te
  · left; simp [title_of, heq]
  · rcases hs : findFirst (matchesTag "span" none []) te with _ | sp
    · left; simp [title_of, heq, hs]
    · right; exact ⟨te, sp, rfl, hs, by simp [title_of, heq, hs]⟩

theorem author_of_spec (b : Node) :
    author_of b = sentinel ∨ ∃ ae au, find_author_element b = some ae ∧
      findFirst (matchesTag "a" (some "tm-user-info__username") []) ae = some au ∧
      author_of b = pyStripS au.innerText := by
  rcases heq : find_author_element b with _ | ae
  · left; simp [author_of, heq]
  · rcases ha : findFirst (matchesTag "a" (some "tm-user-info__username") []) ae with _ | au
    · left; simp [author_of, heq, ha]
    · right; exact ⟨ae, au, rfl, ha, by simp [author_of, heq, ha]⟩

theorem datetime_of_spec (b : Node) :
    ((datetime_of b).1 = sentinel ∧ (datetime_of b).2 = sentinel)
    ∨ ∃ te dtv, find_time_element b = some te ∧ te.attr "datetime" = some dtv ∧ dtv ≠ "" ∧
        (datetime_of b).1 = String.mk (parse_datetime_attr (pyStrip dtv.toList)).1 ∧
        (datetime_of b).2 = String.mk (parse_datetime_attr (pyStrip dtv.toList)).2 := by
  rcases heq : find_time_element b with _ | te
  · left; simp [datetime_of, heq, sentinel]
  · rcases hd : te.attr "datetime" with _ | dtv
    · left; simp [datetime_of, heq, hd, sentinel]
    · by_cases he : dtv = ""
      · left; simp [datetime_of, heq, hd, he, sentinel]
      · right
        exact ⟨te, dtv, rfl, hd, he,
          by simp [datetime_of, heq, hd, he], by simp [datetime_of, heq, hd, he]⟩

theorem votes_of_spec (b : Node) :
    votes_of b = sentinel ∨ ∃ ve vm, find_votes_element b = some ve ∧
      findFirst (matchesTag "span" (some "tm-votes-meter__value")
        [("data-test-id", "votes-meter-value")]) ve = some vm ∧
      vm.innerText ≠ "" ∧ votes_of b = pyStripS vm.innerText := by
  rcases heq : find_votes_element b with _ | ve
  · left; simp [votes_of, heq]
  · rcases hv : findFirst (matchesTag "span" (some "tm-votes-meter__value")
        [("data-test-id", "votes-meter-value")]) ve with _ | vm
    · left; simp [votes_of, heq, hv]
    · by_cases he : vm.innerText = ""
      · left; simp [votes_of, heq, hv, he]
      · right; exact ⟨ve, vm, rfl, hv, he, by simp [votes_of, heq, hv, he]⟩

theorem comments_of_spec (b : Node) :
    comments_of b = sentinel ∨ ∃ cw sv, find_comments_wrapper b = some cw ∧
      findFirst (matchesTag "span" (some "value") []) cw = some sv ∧
      sv.innerText ≠ "" ∧ comments_of b = pyStripS sv.innerText := by
  rcases heq : find_comments_wrapper b with _ | cw
  · left; simp [comments_of, heq]
  · rcases hv : findFirst (matchesTag "span" (some "value") []) cw with _ | sv
    · left; simp [comments_of, heq, hv]
    · by_cases he : sv.innerText = ""
      · left; simp [comments_of, heq, hv, he]
      · right; exact ⟨cw, sv, rfl, hv, he, by simp [comments_of, heq, hv, he]⟩

theorem views_of_spec (b : Node) :
    views_of b = sentinel ∨ ∃ vp vv, find_views_parent b = some vp ∧
      findFirst (matchesTag "span" (some "tm-icon-counter__value") []) vp = some vv ∧
      views_of b = format_number
        (match vv.attr "title" with
         | some t => if t = "" then vv.innerText else t
         | none => vv.innerText) := by
  rcases heq : find_views_parent b with _ | vp
  · left; simp [views_of, heq]
  · rcases hv : findFirst (matchesTag "span" (some "tm-icon-counter__value") []) vp with _ | vv
    · left; simp [views_of, heq, hv]
    · right; exact ⟨vp, vv, rfl, hv, by simp [views_of, heq, hv]⟩

theorem bookmarks_of_spec (b : Node) :
    bookmarks_of b = sentinel ∨ ∃ bb cs, find_bookmarks_button b = some bb ∧
      findFirst (matchesTag "span" (some "bookmarks-button__counter") []) bb = some cs ∧
      bookmarks_of b = format_number
        (if (if cs.innerText = "" then "" else pyStripS cs.innerText) = ""
         then pyStripS ((cs.attr "title").getD "")
         else (if cs.innerText = "" then "" else pyStripS cs.innerText)) := by
  rcases heq : find_bookmarks_button b with _ | bb
  · left; simp [bookmarks_of, heq]
  · rcases hv : findFirst (matchesTag "span" (some "bookmarks-button__counter") []) bb with _ | cs
    · left; simp [bookmarks_of, heq, hv]
    · right; exact ⟨bb, cs, rfl, hv, by simp [bookmarks_of, heq, hv]⟩

/-- Claim C4: every extracted record carries all nine fields in source order,
each retrievable from the returned dict (never absent; `String`-valued, so
never null), and each field is either the explicit sentinel (`"N/A"`) or a
value extracted from the block by that field's rule. -/
theorem record_fields_present_or_sentinel (b : Node) :
    ((record_dict (parse_article_block b)).map Prod.fst
      = ["url", "title", "author", "date", "time", "votes", "comments", "bookmarks", "views"])
    ∧ (record_dict (parse_article_block b)).lookup "url" = some (parse_article_block b).url
    ∧ (record_dict (parse_article_block b)).lookup "title" = some (parse_article_block b).title
    ∧ (record_dict (parse_article_block b)).lookup "author" = some (parse_article_block b).author
    ∧ (record_dict (parse_article_block b)).lookup "date" = some (parse_article_block b).date
    ∧ (record_dict (parse_article_block b)).lookup "time" = some (parse_article_block b).time
    ∧ (record_dict (parse_article_block b)).lookup "votes" = some (parse_article_block b).votes
    ∧ (record_dict (parse_article_block b)).lookup "comments"
        = some (parse_article_block b).comments
    ∧ (record_dict (parse_article_block b)).lookup "bookmarks"
        = some (parse_article_block b).bookmarks
    ∧ (record_dict (parse_article_block b)).lookup "views" = some (parse_article_block b).views
    ∧ ((parse_article_block b).url = sentinel ∨ ∃ le href, find_link_element b = some le ∧
        le.attr "href" = some href ∧ href ≠ "" ∧ (parse_article_block b).url = BASE_URL ++ href)
    ∧ ((parse_article_block b).title = sentinel ∨ ∃ te sp, find_title_element b = some te ∧
        findFirst (matchesTag "span" none []) te = some sp ∧
        (parse_article_block b).title = pyStripS sp.innerText)
    ∧ ((parse_article_block b).author = sentinel ∨ ∃ ae au, find_author_element b = some ae ∧
        findFirst (matchesTag "a" (some "tm-user-info__username") []) ae = some au ∧
        (parse_article_block b).author = pyStripS au.innerText)
    ∧ (((parse_article_block b).date = sentinel ∧ (parse_article_block b).time = sentinel)
       ∨ ∃ te dtv, find_time_element b = some te ∧ te.attr "datetime" = some dtv ∧ dtv ≠ "" ∧
          (parse_article_block b).date = String.mk (parse_datetime_attr (pyStrip dtv.toList)).1 ∧
          (parse_article_block b).time = String.mk (parse_datetime_attr (pyStrip dtv.toList)).2)
    ∧ ((parse_article_block b).votes = sentinel ∨ ∃ ve vm, find_votes_element b = some ve ∧
        findFirst (matchesTag "span" (some "tm-votes-meter__value")
          [("data-test-id", "votes-meter-value")]) ve = some vm ∧
        vm.innerText ≠ "" ∧ (parse_article_block b).votes = pyStripS vm.innerText)
    ∧ ((parse_article_block b).comments = sentinel ∨ ∃ cw sv,
        find_comments_wrapper b = some cw ∧
        findFirst (matchesTag "span" (some "value") []) cw = some sv ∧
        sv.innerText ≠ "" ∧ (parse_article_block b).comments = pyStripS sv.innerText)
    ∧ ((parse_article_block b).bookmarks = sentinel ∨ ∃ bb cs,
        find_bookmarks_button b = some bb ∧
        findFirst (matchesTag "span" (some "bookmarks-button__counter") []) bb = some cs ∧
        (parse_article_block b).bookmarks = format_number
          (if (if cs.innerText = "" then "" else pyStripS cs.innerText) = ""
           then pyStripS ((cs.attr "title").getD "")
           else (if cs.innerText = "" then "" else pyStripS cs.innerText)))
    ∧ ((parse_article_block b).views = sentinel ∨ ∃ vp vv, find_views_parent b = some vp ∧
        findFirst (matchesTag "span" (some "tm-icon-counter__value") []) vp = some vv ∧
        (parse_article_block b).views = format_number
          (match vv.attr "title" with
           | some t => if t = "" then vv.innerText else t
           | none => vv.innerText)) :=
  ⟨rfl, rfl, rfl, rfl, rfl, rfl, rfl, rfl, rfl, rfl,
   url_of_spec b, title_of_spec b, author_of_spec b, datetime_of_spec b,
   votes_of_spec b, comments_of_spec b, bookmarks_of_spec b, views_of_spec b⟩

theorem extractor_skips_failing_container_witness :
    parse_articles_list_with failOnBad threeBlockDoc
      = [parse_article_block (articleBlockW "a"), parse_article_block (articleBlockW "c")] := by
  have h := (extractor_skips_failing_container failOnBad threeBlockDoc).2
    [articleBlockW "a"] (articleBlockW "bad") [articleBlockW "c"] "boom" rfl rfl
  simpa [failOnBad, articleBlockW, Node.attr] using h

/-- Claim C2: URL normalization is idempotent on every non-empty input, in
the Kleisli sense for the failure-carrying result; in particular every
address it returns successfully is already normalized and maps to itself. -/
theorem normalize_idempotent (x : String) (hx : x ≠ "") :
    (normalize_company_articles_url x).bind normalize_company_articles_url
      = normalize_company_articles_url x
    ∧ ∀ u, normalize_company_articles_url x = .ok u →
        normalize_company_articles_url u = .ok u := by
  have key : ∀ u, normalize_company_articles_url x = .ok u →
      normalize_company_articles_url u = .ok u := by
    intro u hu
    have hok : normalizeChars x.toList = .ok u.toList := normalize_ok_toList x u hu
    have hg := normalizeChars_ok_good _ _ hok
    have hfix := normalizeChars_fixed _ hg
    unfold normalize_company_articles_url
    rw [hfix]
    cases u with
    | mk l => rfl
  refine ⟨?_, key⟩
  cases hc : normalize_company_articles_url x with
  | error e => rfl
  | ok u =>
    show normalize_company_articles_url u = Except.ok u
    exact key u hc

theorem normalize_idempotent_witness :
    (normalize_company_articles_url "https://habr.com/ru/companies/acme/").bind
        normalize_company_articles_url
      = normalize_company_articles_url "https://habr.com/ru/companies/acme/"
    ∧ normalize_company_articles_url "https://habr.com/ru/companies/acme/articles/"
        = .ok "https://habr.com/ru/companies/acme/articles/" := by
  refine ⟨(normalize_idempotent "https://habr.com/ru/companies/acme/" (by decide)).1, ?_⟩
  exact (normalize_idempotent "https://habr.com/ru/companies/acme/" (by decide)).2
    "https://habr.com/ru/companies/acme/articles/" rfl

/-- Claim C7 counterexample: `"http://[/x"` is a non-empty input on which
normalization does not return a canonical address: it fails with the URL
parser's `ValueError("Invalid IPv6 URL")` (an unmatched bracket in the host),
refuting "for every non-empty input it returns a canonical listing
address". -/
theorem normalize_nonempty_failure_counterexample :
    ("http://[/x" : String) ≠ ""
    ∧ normalize_company_articles_url "http://[/x" = .error .invalidIPv6
    ∧ ∀ u, normalize_company_articles_url "http://[/x" ≠ .ok u := by
  have hval : normalize_company_articles_url "http://[/x" = .error .invalidIPv6 := rfl
  refine ⟨by decide, hval, fun u h => ?_⟩
  rw [hval] at h
  exact Except.noConfusion h

/-- Claim C7 (amended): normalization fails with `InvalidInputError` exactly
when the raw input is empty (a pure check, before any network activity —
the whole normalizer is effect-free); every non-empty input yields either a
canonical listing address or the URL parser's IPv6-bracket `ValueError`. -/
theorem normalize_invalid_input_iff_empty (raw : String) :
    (normalize_company_articles_url raw = .error .invalidInput ↔ raw = "")
    ∧ (raw ≠ "" →
        (∃ u, normalize_company_articles_url raw = .ok u)
        ∨ normalize_company_articles_url raw = .error .invalidIPv6) := by
  constructor
  · constructor
    · intro h
      by_contra hne
      have hne' : raw.toList ≠ [] := fun hl => hne ((string_empty_iff_toList raw).mpr hl)
      unfold normalize_company_articles_url normalizeChars at h
      rw [if_neg hne'] at h
      cases hp : urlparseModel (pyStrip raw.toList) with
      | error e =>
        rw [hp] at h
        have he := urlparseModel_error_ipv6 _ _ hp
        subst he
        simp [Except.map] at h
      | ok p =>
        rw [hp] at h
        simp [Except.map] at h
    · intro h
      subst h
      rfl
  · intro hne
    have hne' : raw.toList ≠ [] := fun hl => hne ((string_empty_iff_toList raw).mpr hl)
    unfold normalize_company_articles_url normalizeChars
    rw [if_neg hne']
    cases hp : urlparseModel (pyStrip raw.toList) with
    | error e =>
      right
      have he := urlparseModel_error_ipv6 _ _ hp
      subst he
      rfl
    | ok p =>
      left
      exact ⟨String.mk _, rfl⟩

theorem normalize_invalid_input_iff_empty_witness :
    normalize_company_articles_url "" = .error .invalidInput
    ∧ ((∃ u, normalize_company_articles_url "https://habr.com/ru/companies/acme/" = .ok u)
       ∨ normalize_company_articles_url "https://habr.com/ru/companies/acme/"
           = .error .invalidIPv6) :=
  ⟨(normalize_invalid_input_iff_empty "").1.mpr rfl,
   (normalize_invalid_input_iff_empty "https://habr.com/ru/companies/acme/").2 (by decide)⟩

/-- Claim C10: every address normalization returns successfully consists only
of scheme, host and a path with trailing separator; in particular it contains
no `'?'` and no `'#'` at all, so the input's query string and fragment are
discarded. -/
theorem normalize_drops_query_and_fragment (raw u : String)
    (h : normalize_company_articles_url raw = .ok u) :
    (∃ scheme netloc path, u.toList = scheme ++ ':' :: '/' :: '/' :: netloc ++ path
       ∧ path.getLast? = some '/')
    ∧ '?' ∉ u.toList ∧ '#' ∉ u.toList := by
  have hok : normalizeChars raw.toList = .ok u.toList := normalize_ok_toList raw u h
  have hg := normalizeChars_ok_good _ _ hok
  obtain ⟨hq, hf⟩ := goodUrl_no_query_fragment _ hg
  obtain ⟨scheme, netloc, segs, -, -, -, -, heq⟩ := hg
  exact ⟨⟨scheme, netloc, pathOf segs, heq, pathOf_getLast segs⟩, hq, hf⟩

theorem normalize_drops_query_and_fragment_witness :
    normalize_company_articles_url "https://habr.com/ru/companies/acme/?q=1#frag"
      = .ok "https://habr.com/ru/companies/acme/articles/"
    ∧ '?' ∉ ("https://habr.com/ru/companies/acme/articles/" : String).toList
    ∧ '#' ∉ ("https://habr.com/ru/companies/acme/articles/" : String).toList := by
  refine ⟨rfl, ?_, ?_⟩
  · exact (normalize_drops_query_and_fragment
      "https://habr.com/ru/companies/acme/?q=1#frag"
      "https://habr.com/ru/companies/acme/articles/" rfl).2.1
  · exact (normalize_drops_query_and_fragment
      "https://habr.com/ru/companies/acme/?q=1#frag"
      "https://habr.com/ru/companies/acme/articles/" rfl).2.2

end Habr
